import Mathlib

/-!
Verification of the storage substrate of `cmu-15445`.

Shallow embedding of

* `src/hash/extendible_hash.cpp`   (`ExtendibleHash`),
* `src/buffer/lru_replacer.cpp`    (`LRUReplacer`),
* `src/buffer/buffer_pool_manager.cpp` (`BufferPoolManager`),

followed by theorems about the embedded definitions.

Conventions of the embedding.

* The latches (`std::lock_guard`) serialise the public operations; every
  operation is modelled as one atomic state transformer.
* `std::map` / `std::unordered_map` objects are association lists whose keys
  are pairwise distinct; the four operations used by the sources are
  `mapFind`, `mapAssign`, `mapInsert` and `mapErase`.
* A `std::shared_ptr<Bucket>` is an index into an append-only heap of buckets,
  `std::make_shared` allocates the next free index, and pointer equality is
  equality of indices.
* A `Page *` is the index of the frame inside `pages_`.
-/

namespace cmudb

/-! ## Associative containers -/

section MapModel

variable {K V : Type} [DecidableEq K]

/-- Lookup `m.find(key)`: the mapped value, or `none` for `m.end()`. -/
def mapFind (key : K) : List (K × V) → Option V
  | [] => none
  | (k, v) :: rest => if k = key then some v else mapFind key rest

/-- Assignment `m[key] = value`: overwrite the mapped value of an existing key,
create the entry otherwise. -/
def mapAssign (key : K) (value : V) : List (K × V) → List (K × V)
  | [] => [(key, value)]
  | (k, v) :: rest =>
    if k = key then (k, value) :: rest else (k, v) :: mapAssign key value rest

/-- Insertion `m.insert(item)`: add the entry unless its key is already there. -/
def mapInsert (item : K × V) (m : List (K × V)) : List (K × V) :=
  match mapFind item.1 m with
  | some _ => m
  | none => m ++ [item]

/-- Removal `m.erase(key)`. -/
def mapErase (key : K) : List (K × V) → List (K × V)
  | [] => []
  | (k, v) :: rest => if k = key then mapErase key rest else (k, v) :: mapErase key rest

end MapModel

/-! ## Extendible hash table (`src/hash/extendible_hash.cpp`) -/

/-- Modelled from the spec: the `Bucket` record of `hash/extendible_hash.h`
(not part of the sources at hand): a local depth and a mapping `key → value`. -/
structure Bucket (K V : Type) where
  localDepth : Nat
  contents : List (K × V)
deriving DecidableEq, Repr

/-- State of an `ExtendibleHash<K, V>` object.  `bucketDirectory` holds bucket
pointers, `heap` the buckets they point to. -/
structure ExtendibleHash (K V : Type) where
  globalDepth : Nat
  bucketSizeLimit : Nat
  bucketDirectory : List Nat
  heap : List (Bucket K V)
deriving DecidableEq, Repr

/-- Largest global depth at which `1 << globalDepth` and `(1 << globalDepth) - 1`
are defined for the 32-bit `int` the source computes them in. -/
def maxDepth : Nat := 30

namespace ExtendibleHash

variable {K V : Type} [DecidableEq K]

/-- Constructor `ExtendibleHash(size)`: depth 0 and one empty bucket of local
depth 0 in the single directory slot. -/
def new (size : Nat) : ExtendibleHash K V :=
  { globalDepth := 0
    bucketSizeLimit := size
    bucketDirectory := [0]
    heap := [⟨0, []⟩] }

/-- Dereference of a bucket pointer. -/
def deref (t : ExtendibleHash K V) (p : Nat) : Bucket K V :=
  t.heap.getD p ⟨0, []⟩

/-- Accessor `GetGlobalDepth`. -/
def GetGlobalDepth (t : ExtendibleHash K V) : Nat := t.globalDepth

/-- Accessor `GetLocalDepth(bucket_id)`. -/
def GetLocalDepth (t : ExtendibleHash K V) (bucket_id : Nat) : Nat :=
  (t.deref (t.bucketDirectory.getD bucket_id 0)).localDepth

/-- Accessor `GetNumBuckets`: the source returns `bucketDirectory.size()`. -/
def GetNumBuckets (t : ExtendibleHash K V) : Nat := t.bucketDirectory.length

/-- Helper `getBucketIndex(hashKey)`: `hashKey & ((1 << globalDepth) - 1)`. -/
def getBucketIndex (t : ExtendibleHash K V) (hashKey : Nat) : Nat :=
  hashKey &&& ((1 <<< t.globalDepth) - 1)

/-- Helper `getBucket(key)`: the pointer stored in the directory slot of `key`. -/
def getBucket (HashKey : K → Nat) (t : ExtendibleHash K V) (key : K) : Nat :=
  t.bucketDirectory.getD (t.getBucketIndex (HashKey key)) 0

/-- Operation `Find(key, value)`: `some v` stands for `true` with `value = v`,
`none` for `false`. -/
def Find (HashKey : K → Nat) (t : ExtendibleHash K V) (key : K) : Option V :=
  mapFind key (t.deref (getBucket HashKey t key)).contents

/-- In-place update `p->contents = f(p->contents)` of the bucket behind the
pointer `p`; every directory slot holding `p` sees the new contents. -/
def modifyContents (t : ExtendibleHash K V) (p : Nat)
    (f : List (K × V) → List (K × V)) : ExtendibleHash K V :=
  { t with heap := t.heap.set p ⟨(t.deref p).localDepth, f (t.deref p).contents⟩ }

/-- Operation `Remove(key)`: the returned flag and the table afterwards. -/
def Remove (HashKey : K → Nat) (t : ExtendibleHash K V) (key : K) :
    Bool × ExtendibleHash K V :=
  let local_bucket := getBucket HashKey t key
  match mapFind key (t.deref local_bucket).contents with
  | some _ => (true, t.modifyContents local_bucket (mapErase key))
  | none => (false, t)

/-- The redistribution loop of `Insert` (lines 111-117): every item of the
overflowing bucket goes to `split_2` when its hash has the mask bit set and to
`split_1` otherwise.  The result is `(split_1->contents, split_2->contents)`. -/
def redistribute (HashKey : K → Nat) (mask : Nat) (contents : List (K × V)) :
    List (K × V) × List (K × V) :=
  contents.foldl
    (fun acc item =>
      if HashKey item.1 &&& mask ≠ 0 then (acc.1, mapInsert item acc.2)
      else (mapInsert item acc.1, acc.2))
    ([], [])

/-- The directory rewrite loop of `Insert` (lines 119-126), started at slot `i`:
a slot holding `local_bucket` receives `split_2` when `i & mask` is non-zero
and `split_1` otherwise. -/
def rewriteDirectory (local_bucket split_1 split_2 mask : Nat) :
    Nat → List Nat → List Nat
  | _, [] => []
  | i, q :: rest =>
    (if q = local_bucket then (if i &&& mask ≠ 0 then split_2 else split_1) else q)
      :: rewriteDirectory local_bucket split_1 split_2 mask (i + 1) rest

/-- Lines 99-105 of `Insert`: when the local depth of `local_bucket` equals the
global depth, the directory is appended to itself and the global depth grows. -/
def growDirectory (t : ExtendibleHash K V) (local_bucket : Nat) : ExtendibleHash K V :=
  if (t.deref local_bucket).localDepth = t.globalDepth then
    { t with
      bucketDirectory := t.bucketDirectory ++ t.bucketDirectory
      globalDepth := t.globalDepth + 1 }
  else t

/-- One pass through the body of the `while` loop of `Insert` (lines 99-126)
for the bucket pointer `local_bucket`. -/
def splitBucket (HashKey : K → Nat) (t : ExtendibleHash K V) (local_bucket : Nat) :
    ExtendibleHash K V :=
  let grown := growDirectory t local_bucket
  let old := t.deref local_bucket
  let split_1 := t.heap.length
  let split_2 := t.heap.length + 1
  let mask := 1 <<< old.localDepth
  let parts := redistribute HashKey mask old.contents
  { grown with
    heap := t.heap ++ [⟨old.localDepth + 1, parts.1⟩, ⟨old.localDepth + 1, parts.2⟩]
    bucketDirectory :=
      rewriteDirectory local_bucket split_1 split_2 mask 0 grown.bucketDirectory }

/-- The `while` loop of `Insert` (lines 98-130), run for at most `fuel`
iterations.  `none` means that the loop has not left within `fuel` iterations,
or that it has reached a directory doubling at depth `maxDepth`, after which
`1 << globalDepth` is no longer defined. -/
def insertLoop (HashKey : K → Nat) :
    Nat → ExtendibleHash K V → K → Option (ExtendibleHash K V)
  | 0, _, _ => none
  | fuel + 1, t, key =>
    let local_bucket := getBucket HashKey t key
    if (t.deref local_bucket).contents.length = t.bucketSizeLimit then
      if (t.deref local_bucket).localDepth = t.globalDepth ∧ maxDepth ≤ t.globalDepth then
        none
      else insertLoop HashKey fuel (splitBucket HashKey t local_bucket) key
    else some t

/-- Line 132 of `Insert`: `bucketDirectory[index]->contents[key] = value`. -/
def store (HashKey : K → Nat) (t : ExtendibleHash K V) (key : K) (value : V) :
    ExtendibleHash K V :=
  let index := t.getBucketIndex (HashKey key)
  t.modifyContents (t.bucketDirectory.getD index 0) (mapAssign key value)

/-- Operation `Insert(key, value)` with the loop bounded by `fuel`: `some t`
when the call returns with table `t`. -/
def Insert (HashKey : K → Nat) (fuel : Nat) (t : ExtendibleHash K V) (key : K)
    (value : V) : Option (ExtendibleHash K V) :=
  (insertLoop HashKey fuel t key).map (fun t' => store HashKey t' key value)

/-- Tables reachable from the constructor `ExtendibleHash(size)` through calls
of `Insert` that return and calls of `Remove`. -/
inductive Reachable (HashKey : K → Nat) (size : Nat) : ExtendibleHash K V → Prop
  | init : Reachable HashKey size (new size)
  | insert {t t' : ExtendibleHash K V} (fuel : Nat) (key : K) (value : V) :
      Reachable HashKey size t → Insert HashKey fuel t key value = some t' →
      Reachable HashKey size t'
  | remove {t : ExtendibleHash K V} (key : K) :
      Reachable HashKey size t → Reachable HashKey size (Remove HashKey t key).2

/-- Shape of the tables the operations produce: the directory has
`2 ^ globalDepth` slots, every slot holds a pointer to an allocated bucket, and
no such bucket is deeper than the directory. -/
structure WF (t : ExtendibleHash K V) : Prop where
  length_eq : t.bucketDirectory.length = 2 ^ t.globalDepth
  ptr_lt : ∀ q ∈ t.bucketDirectory, q < t.heap.length
  depth_le : ∀ q ∈ t.bucketDirectory, (t.deref q).localDepth ≤ t.globalDepth

/-- Directory shape and bucket contents of the tables the operations produce.
Beyond `WF`: the global depth stays in the range of `maxDepth`; two slots hold
the same bucket exactly when they agree on the low `localDepth` bits; the hash
of every stored key agrees with the index of the slot on the low `localDepth`
bits; no bucket holds more than `bucketSizeLimit` entries. -/
structure Shape (HashKey : K → Nat) (t : ExtendibleHash K V) : Prop where
  wf : WF t
  depth_le_max : t.globalDepth ≤ maxDepth
  same_of_agree : ∀ i j, i < t.bucketDirectory.length → j < t.bucketDirectory.length →
    i % 2 ^ t.GetLocalDepth i = j % 2 ^ t.GetLocalDepth i →
    t.bucketDirectory.getD i 0 = t.bucketDirectory.getD j 0
  agree_of_same : ∀ i j, i < t.bucketDirectory.length → j < t.bucketDirectory.length →
    t.bucketDirectory.getD i 0 = t.bucketDirectory.getD j 0 →
    i % 2 ^ t.GetLocalDepth i = j % 2 ^ t.GetLocalDepth i
  home : ∀ i, i < t.bucketDirectory.length →
    ∀ e ∈ (t.deref (t.bucketDirectory.getD i 0)).contents,
      HashKey e.1 % 2 ^ t.GetLocalDepth i = i % 2 ^ t.GetLocalDepth i
  bounded : ∀ q ∈ t.bucketDirectory, (t.deref q).contents.length ≤ t.bucketSizeLimit

end ExtendibleHash

/-! ## LRU replacer (`src/buffer/lru_replacer.cpp`) -/

/-- State of an `LRUReplacer<T>`.  `lst` is the `std::list`, front first: the
front is the most recent end, the back yields the victims.  `hash` is the key
set of the index from values to list iterators; the iterator stored for a key
designates the node of `lst` that holds this key. -/
structure LRUReplacer (T : Type) where
  lst : List T
  hash : List T
deriving DecidableEq, Repr

namespace LRUReplacer

variable {T : Type} [DecidableEq T]

/-- Constructor `LRUReplacer()`. -/
def new : LRUReplacer T := ⟨[], []⟩

/-- Operation `Insert(value)`: a node already holding `value` is unlinked, then
`value` is pushed to the front and indexed. -/
def Insert (r : LRUReplacer T) (value : T) : LRUReplacer T :=
  let lst := if value ∈ r.hash then r.lst.erase value else r.lst
  { lst := value :: lst
    hash := if value ∈ r.hash then r.hash else value :: r.hash }

/-- Operation `Victim(value)`: `none` stands for `false`, `some v` for `true`
with `value = v`; the second component is the replacer afterwards. -/
def Victim (r : LRUReplacer T) : Option T × LRUReplacer T :=
  match r.lst.getLast? with
  | none => (none, r)
  | some last => (some last, { lst := r.lst.dropLast, hash := r.hash.erase last })

/-- Operation `Erase(value)`: the returned flag and the replacer afterwards. -/
def Erase (r : LRUReplacer T) (value : T) : Bool × LRUReplacer T :=
  if value ∈ r.hash then
    (true, { lst := r.lst.erase value, hash := r.hash.erase value })
  else (false, r)

/-- Operation `Size()`. -/
def Size (r : LRUReplacer T) : Nat := r.lst.length

/-- Replacers reachable from the constructor through the public operations. -/
inductive Reachable : LRUReplacer T → Prop
  | init : Reachable new
  | insert {r : LRUReplacer T} (value : T) : Reachable r → Reachable (r.Insert value)
  | victim {r : LRUReplacer T} : Reachable r → Reachable r.Victim.2
  | erase {r : LRUReplacer T} (value : T) : Reachable r → Reachable (r.Erase value).2

/-- The index and the list describe the same set of values, without repetition. -/
structure Inv (r : LRUReplacer T) : Prop where
  nodup_lst : r.lst.Nodup
  nodup_hash : r.hash.Nodup
  mem_iff : ∀ x, x ∈ r.hash ↔ x ∈ r.lst

/-- A sequence of `Insert` calls, first call first. -/
def insertAll (r : LRUReplacer T) (values : List T) : LRUReplacer T :=
  values.foldl Insert r

/-- The results of `n` successive `Victim` calls, first call first, and the
replacer after the last of them. -/
def victims : Nat → LRUReplacer T → List (Option T) × LRUReplacer T
  | 0, r => ([], r)
  | n + 1, r => ((r.Victim.1 :: (victims n r.Victim.2).1), (victims n r.Victim.2).2)

/-- The distinct values of a sequence of inserts in the order of their last
insert, oldest first: an insert that is followed by a later insert of the same
value does not count. -/
def lastInsertOrder : List T → List T
  | [] => []
  | x :: xs => if x ∈ xs then lastInsertOrder xs else x :: lastInsertOrder xs

end LRUReplacer

/-! ## Buffer pool manager (`src/buffer/buffer_pool_manager.cpp`) -/

/-- Page identifiers (`page_id_t`). -/
abbrev page_id_t := Int

/-- Modelled from the spec: the sentinel `INVALID_PAGE_ID` of `common/config.h`
(not part of the sources at hand), the identifier of a frame holding no page. -/
def INVALID_PAGE_ID : page_id_t := -1

/-- Modelled from the spec: the `Page` record of `page/page.h` (not part of the
sources at hand): the byte buffer and the metadata `page_id`, `pin_count`,
`is_dirty`. -/
structure Page where
  data : List Nat
  page_id : page_id_t
  pin_count : Int
  is_dirty : Bool
deriving DecidableEq, Repr

/-- Modelled from the spec: `Page::ResetMemory` of `page/page.h` zeroes the
frame's buffer and touches nothing else. -/
def Page.ResetMemory (p : Page) : Page :=
  { p with data := p.data.map (fun _ => 0) }

/-- Modelled from the spec: a freshly constructed `Page` of `page/page.h`: a
zeroed buffer of `PAGE_SIZE` bytes, no page, no pin, clean. -/
def Page.new (PAGE_SIZE : Nat) : Page :=
  { data := List.replicate PAGE_SIZE 0
    page_id := INVALID_PAGE_ID
    pin_count := 0
    is_dirty := false }

/-- Calls received by the disk manager. -/
inductive DiskCall where
  | WritePage (page_id : page_id_t) (data : List Nat)
  | ReadPage (page_id : page_id_t)
  | AllocatePage (result : page_id_t)
  | DeallocatePage (page_id : page_id_t)
deriving DecidableEq, Repr

/-- Modelled from the spec: the external `DiskManager`.  `file` is the on-disk
image, `next_page_id` the next identifier `AllocatePage` hands out, and `calls`
the trace of the calls received so far, oldest first. -/
structure DiskManager where
  file : List (page_id_t × List Nat)
  next_page_id : page_id_t
  calls : List DiskCall
deriving DecidableEq, Repr

namespace DiskManager

/-- Modelled from the spec: `WritePage(id, buffer)` persists `buffer` as the
contents of `id`. -/
def WritePage (d : DiskManager) (page_id : page_id_t) (data : List Nat) : DiskManager :=
  { d with
    file := mapAssign page_id data d.file
    calls := d.calls ++ [DiskCall.WritePage page_id data] }

/-- Modelled from the spec: `ReadPage(id, buffer)` fills `buffer` with the
on-disk contents of `id`; a page the file does not hold leaves the buffer as
it is.  The result is the buffer afterwards and the disk manager. -/
def ReadPage (d : DiskManager) (page_id : page_id_t) (buffer : List Nat) :
    List Nat × DiskManager :=
  ((mapFind page_id d.file).getD buffer,
    { d with calls := d.calls ++ [DiskCall.ReadPage page_id] })

/-- Modelled from the spec: `AllocatePage()` yields a fresh identifier,
monotonically. -/
def AllocatePage (d : DiskManager) : page_id_t × DiskManager :=
  (d.next_page_id,
    { d with
      next_page_id := d.next_page_id + 1
      calls := d.calls ++ [DiskCall.AllocatePage d.next_page_id] })

/-- Modelled from the spec: `DeallocatePage(id)` marks the identifier reusable. -/
def DeallocatePage (d : DiskManager) (page_id : page_id_t) : DiskManager :=
  { d with calls := d.calls ++ [DiskCall.DeallocatePage page_id] }

end DiskManager

/-- State of a `BufferPoolManager`.  Frames are named by their index in
`pages`; the page table, the replacer and the free list hold such indices. -/
structure BufferPoolManager where
  pool_size : Nat
  pages : List Page
  page_table : List (page_id_t × Nat)
  replacer : LRUReplacer Nat
  free_list : List Nat
  disk_manager : DiskManager
deriving DecidableEq, Repr

namespace BufferPoolManager

/-- Constructor: `pool_size` fresh frames, all of them on the free list in index
order, an empty page table and an empty replacer. -/
def new (pool_size PAGE_SIZE : Nat) (disk_manager : DiskManager) : BufferPoolManager :=
  { pool_size := pool_size
    pages := List.replicate pool_size (Page.new PAGE_SIZE)
    page_table := []
    replacer := LRUReplacer.new
    free_list := List.range pool_size
    disk_manager := disk_manager }

/-- The frame behind a `Page *`. -/
def frame (b : BufferPoolManager) (p : Nat) : Page :=
  b.pages.getD p (Page.new 0)

/-- Update through a `Page *`. -/
def setFrame (b : BufferPoolManager) (p : Nat) (page : Page) : BufferPoolManager :=
  { b with pages := b.pages.set p page }

/-- Lines 61-68 of `FetchPage` and 167-174 of `NewPage`: the replacement frame
comes from the front of the free list when there is one, from the replacer
otherwise; `none` when the replacer has no victim. -/
def pickReplacement (b : BufferPoolManager) : Option (Nat × BufferPoolManager) :=
  match b.free_list with
  | replacement :: rest => some (replacement, { b with free_list := rest })
  | [] =>
    match b.replacer.Victim with
    | (some replacement, replacer) => some (replacement, { b with replacer := replacer })
    | (none, _) => none

/-- Operation `FetchPage(page_id)`: the returned frame pointer (`none` for
`nullptr`) and the pool afterwards. -/
def FetchPage (b : BufferPoolManager) (page_id : page_id_t) :
    Option Nat × BufferPoolManager :=
  match mapFind page_id b.page_table with
  | some res =>
    (some res, b.setFrame res { b.frame res with pin_count := (b.frame res).pin_count + 1 })
  | none =>
    match b.pickReplacement with
    | none => (none, b)
    | some (replacement, b₁) =>
      let b₂ := b₁.setFrame replacement
        { b₁.frame replacement with pin_count := (b₁.frame replacement).pin_count + 1 }
      let old_page_id := (b₂.frame replacement).page_id
      let b₃ :=
        if (b₂.frame replacement).is_dirty then
          { b₂ with
            disk_manager := b₂.disk_manager.WritePage old_page_id (b₂.frame replacement).data }
        else b₂
      let b₄ :=
        { b₃ with page_table := mapAssign page_id replacement (mapErase old_page_id b₃.page_table) }
      let b₅ := b₄.setFrame replacement (b₄.frame replacement).ResetMemory
      let read := b₅.disk_manager.ReadPage page_id (b₅.frame replacement).data
      let b₆ := { b₅ with disk_manager := read.2 }
      (some replacement, b₆.setFrame replacement { b₆.frame replacement with data := read.1 })

/-- Lines 107-113 of `UnpinPage`: a frame whose pin count is zero enters the
replacer, `is_dirty` is stored, and the call returns `true`. -/
def unpinTail (b : BufferPoolManager) (page : Nat) (is_dirty : Bool) :
    Bool × BufferPoolManager :=
  let b₁ :=
    if (b.frame page).pin_count = 0 then { b with replacer := b.replacer.Insert page }
    else b
  let b₂ :=
    if is_dirty then b₁.setFrame page { b₁.frame page with is_dirty := true } else b₁
  (true, b₂)

/-- Operation `UnpinPage(page_id, is_dirty)`: the returned flag and the pool
afterwards. -/
def UnpinPage (b : BufferPoolManager) (page_id : page_id_t) (is_dirty : Bool) :
    Bool × BufferPoolManager :=
  match mapFind page_id b.page_table with
  | none => (false, b)
  | some page =>
    if (b.frame page).pin_count > 0 then
      (b.setFrame page
        { b.frame page with pin_count := (b.frame page).pin_count - 1 }).unpinTail page is_dirty
    else if (b.frame page).pin_count < 0 then (false, b)
    else b.unpinTail page is_dirty

/-- Operation `FlushPage(page_id)`: the returned flag and the pool afterwards. -/
def FlushPage (b : BufferPoolManager) (page_id : page_id_t) : Bool × BufferPoolManager :=
  if page_id = INVALID_PAGE_ID then (false, b)
  else
    match mapFind page_id b.page_table with
    | none => (false, b)
    | some page =>
      (true, { b with disk_manager := b.disk_manager.WritePage page_id (b.frame page).data })

/-- Operation `DeletePage(page_id)`: the returned flag and the pool afterwards. -/
def DeletePage (b : BufferPoolManager) (page_id : page_id_t) : Bool × BufferPoolManager :=
  match mapFind page_id b.page_table with
  | some old_page =>
    if (b.frame old_page).pin_count ≠ 0 then (false, b)
    else
      let b₁ := { b with page_table := mapErase page_id b.page_table }
      let b₂ := b₁.setFrame old_page
        { b₁.frame old_page with page_id := INVALID_PAGE_ID, is_dirty := false }
      (true,
        { b₂ with
          free_list := b₂.free_list ++ [old_page]
          disk_manager := b₂.disk_manager.DeallocatePage page_id })
  | none => (false, b)

/-- Operation `NewPage(page_id)`: the returned frame pointer together with the
value of the out-parameter `page_id` (`none` for `nullptr`, which leaves the
out-parameter alone) and the pool afterwards. -/
def NewPage (b : BufferPoolManager) : Option (Nat × page_id_t) × BufferPoolManager :=
  match b.pickReplacement with
  | none => (none, b)
  | some (new_page, b₁) =>
    let b₂ := b₁.setFrame new_page
      { b₁.frame new_page with pin_count := (b₁.frame new_page).pin_count + 1 }
    let old_page_id := (b₂.frame new_page).page_id
    let b₃ :=
      if (b₂.frame new_page).is_dirty then
        { b₂ with
          disk_manager := b₂.disk_manager.WritePage old_page_id (b₂.frame new_page).data }
      else b₂
    let alloc := b₃.disk_manager.AllocatePage
    let b₄ := { b₃ with disk_manager := alloc.2 }
    let b₅ := b₄.setFrame new_page
      { b₄.frame new_page with page_id := alloc.1, is_dirty := false }
    (some (new_page, alloc.1), { b₅ with page_table := mapAssign alloc.1 new_page b₅.page_table })

/-- Pool states reachable from the constructor through the public operations;
`write` is a caller storing bytes through a frame pointer it was handed. -/
inductive Reachable (pool_size PAGE_SIZE : Nat) (disk_manager : DiskManager) :
    BufferPoolManager → Prop
  | init : Reachable pool_size PAGE_SIZE disk_manager (new pool_size PAGE_SIZE disk_manager)
  | fetch {b : BufferPoolManager} (page_id : page_id_t) :
      Reachable pool_size PAGE_SIZE disk_manager b →
      Reachable pool_size PAGE_SIZE disk_manager (b.FetchPage page_id).2
  | newPage {b : BufferPoolManager} :
      Reachable pool_size PAGE_SIZE disk_manager b →
      Reachable pool_size PAGE_SIZE disk_manager b.NewPage.2
  | unpin {b : BufferPoolManager} (page_id : page_id_t) (is_dirty : Bool) :
      Reachable pool_size PAGE_SIZE disk_manager b →
      Reachable pool_size PAGE_SIZE disk_manager (b.UnpinPage page_id is_dirty).2
  | flush {b : BufferPoolManager} (page_id : page_id_t) :
      Reachable pool_size PAGE_SIZE disk_manager b →
      Reachable pool_size PAGE_SIZE disk_manager (b.FlushPage page_id).2
  | delete {b : BufferPoolManager} (page_id : page_id_t) :
      Reachable pool_size PAGE_SIZE disk_manager b →
      Reachable pool_size PAGE_SIZE disk_manager (b.DeletePage page_id).2
  | write {b : BufferPoolManager} (p : Nat) (data : List Nat) :
      Reachable pool_size PAGE_SIZE disk_manager b →
      Reachable pool_size PAGE_SIZE disk_manager (b.setFrame p { b.frame p with data := data })

/-- Every frame pointer held by the page table, the free list or the replacer
designates a frame of the pool. -/
structure FramesValid (b : BufferPoolManager) : Prop where
  table_lt : ∀ id p, mapFind id b.page_table = some p → p < b.pages.length
  free_lt : ∀ p ∈ b.free_list, p < b.pages.length
  replacer_lt : ∀ p ∈ b.replacer.lst, p < b.pages.length

end BufferPoolManager

/-! ## Lemmas on the associative containers -/

section MapLemmas

variable {K V : Type} [DecidableEq K]

theorem mapFind_append (key : K) (m m' : List (K × V)) :
    mapFind key (m ++ m') =
      match mapFind key m with
      | some v => some v
      | none => mapFind key m' := by
  induction m with
  | nil => simp [mapFind]
  | cons e rest ih =>
    obtain ⟨k, v⟩ := e
    by_cases h : k = key
    · simp [mapFind, h]
    · simp [mapFind, h, ih]

theorem mapFind_mapInsert (key : K) (item : K × V) (m : List (K × V)) :
    mapFind key (mapInsert item m) =
      match mapFind key m with
      | some v => some v
      | none => if item.1 = key then some item.2 else none := by
  unfold mapInsert
  cases hitem : mapFind item.1 m with
  | some w =>
    cases hkey : mapFind key m with
    | some v => simp
    | none =>
      have hne : item.1 ≠ key := by
        intro h
        rw [h, hkey] at hitem
        exact Option.noConfusion hitem
      simp [hkey, hne]
  | none =>
    simp only [mapFind_append]
    cases hkey : mapFind key m with
    | some v => simp
    | none => simp [mapFind]

theorem mapFind_mapAssign_self (key : K) (value : V) (m : List (K × V)) :
    mapFind key (mapAssign key value m) = some value := by
  induction m with
  | nil => simp [mapAssign, mapFind]
  | cons e rest ih =>
    obtain ⟨k, v⟩ := e
    by_cases h : k = key
    · simp [mapAssign, mapFind, h]
    · simp [mapAssign, mapFind, h, ih]

theorem mapFind_mapAssign_ne {key key' : K} (h : key' ≠ key) (value : V)
    (m : List (K × V)) :
    mapFind key' (mapAssign key value m) = mapFind key' m := by
  have h' : ¬ key = key' := fun e => h e.symm
  induction m with
  | nil => simp [mapAssign, mapFind, h']
  | cons e rest ih =>
    obtain ⟨k, v⟩ := e
    by_cases hk : k = key
    · subst hk
      simp [mapAssign, mapFind, h']
    · by_cases hk' : k = key'
      · subst hk'
        simp [mapAssign, mapFind, hk]
      · simp [mapAssign, mapFind, hk, hk', ih]

theorem mapFind_mapErase_self (key : K) (m : List (K × V)) :
    mapFind key (mapErase key m) = none := by
  induction m with
  | nil => simp [mapErase, mapFind]
  | cons e rest ih =>
    obtain ⟨k, v⟩ := e
    by_cases h : k = key
    · simp [mapErase, h, ih]
    · simp [mapErase, h, mapFind, ih]

theorem mapFind_mapErase_ne {key key' : K} (h : key' ≠ key) (m : List (K × V)) :
    mapFind key' (mapErase key m) = mapFind key' m := by
  have h' : ¬ key = key' := fun e => h e.symm
  induction m with
  | nil => simp [mapErase, mapFind]
  | cons e rest ih =>
    obtain ⟨k, v⟩ := e
    by_cases hk : k = key
    · subst hk
      simp [mapErase, mapFind, h', ih]
    · by_cases hk' : k = key'
      · subst hk'
        simp [mapErase, mapFind, hk]
      · simp [mapErase, mapFind, hk, hk', ih]

end MapLemmas

namespace ExtendibleHash

variable {K V : Type} [DecidableEq K]

/-! ## Lemmas on the extendible hash table -/

omit [DecidableEq K] in
theorem getBucketIndex_eq_mod (t : ExtendibleHash K V) (h : Nat) :
    t.getBucketIndex h = h % 2 ^ t.globalDepth := by
  simp [getBucketIndex, Nat.one_shiftLeft, Nat.and_pow_two_sub_one_eq_mod]

theorem and_mask_ne_zero_iff (x d : Nat) : x &&& (1 <<< d) ≠ 0 ↔ x.testBit d = true := by
  rw [Nat.one_shiftLeft, Nat.and_two_pow]
  cases x.testBit d <;> simp

theorem mapFind_redistribute_aux (HashKey : K → Nat) (mask : Nat) (key : K)
    (c : List (K × V)) :
    ∀ acc : List (K × V) × List (K × V),
      mapFind key (c.foldl
          (fun acc item =>
            if HashKey item.1 &&& mask ≠ 0 then (acc.1, mapInsert item acc.2)
            else (mapInsert item acc.1, acc.2)) acc).1 =
        (match mapFind key acc.1 with
         | some v => some v
         | none => if HashKey key &&& mask ≠ 0 then none else mapFind key c) ∧
      mapFind key (c.foldl
          (fun acc item =>
            if HashKey item.1 &&& mask ≠ 0 then (acc.1, mapInsert item acc.2)
            else (mapInsert item acc.1, acc.2)) acc).2 =
        (match mapFind key acc.2 with
         | some v => some v
         | none => if HashKey key &&& mask ≠ 0 then mapFind key c else none) := by
  induction c with
  | nil =>
    intro acc
    simp only [List.foldl_nil]
    constructor
    · cases h : mapFind key acc.1 <;> simp [mapFind]
    · cases h : mapFind key acc.2 <;> simp [mapFind]
  | cons item rest ih =>
    intro acc
    obtain ⟨k, v⟩ := item
    simp only [List.foldl_cons]
    by_cases hbit : HashKey k &&& mask ≠ 0
    · rw [if_pos hbit]
      obtain ⟨ih1, ih2⟩ := ih (acc.1, mapInsert (k, v) acc.2)
      rw [ih1, ih2]
      simp only [mapFind_mapInsert]
      by_cases hk : k = key
      · subst hk
        constructor
        · cases h : mapFind k acc.1 <;> simp [hbit]
        · cases h : mapFind k acc.2 <;> simp [hbit, mapFind]
      · constructor
        · cases h : mapFind key acc.1 <;> simp [mapFind, hk]
        · cases h : mapFind key acc.2 <;> simp [mapFind, hk]
    · rw [if_neg hbit]
      obtain ⟨ih1, ih2⟩ := ih (mapInsert (k, v) acc.1, acc.2)
      rw [ih1, ih2]
      simp only [mapFind_mapInsert]
      by_cases hk : k = key
      · subst hk
        constructor
        · cases h : mapFind k acc.1 <;> simp [hbit, mapFind]
        · cases h : mapFind k acc.2 <;> simp [hbit]
      · constructor
        · cases h : mapFind key acc.1 <;> simp [mapFind, hk]
        · cases h : mapFind key acc.2 <;> simp [mapFind, hk]

theorem mapFind_redistribute_fst (HashKey : K → Nat) (mask : Nat) (key : K)
    (c : List (K × V)) :
    mapFind key (redistribute HashKey mask c).1 =
      if HashKey key &&& mask ≠ 0 then none else mapFind key c := by
  have h := (mapFind_redistribute_aux HashKey mask key c ([], [])).1
  simpa [redistribute, mapFind] using h

theorem mapFind_redistribute_snd (HashKey : K → Nat) (mask : Nat) (key : K)
    (c : List (K × V)) :
    mapFind key (redistribute HashKey mask c).2 =
      if HashKey key &&& mask ≠ 0 then mapFind key c else none := by
  have h := (mapFind_redistribute_aux HashKey mask key c ([], [])).2
  simpa [redistribute, mapFind] using h

theorem length_rewriteDirectory (p s1 s2 mask : Nat) (dir : List Nat) :
    ∀ i, (rewriteDirectory p s1 s2 mask i dir).length = dir.length := by
  induction dir with
  | nil => intro i; rfl
  | cons q rest ih => intro i; simp [rewriteDirectory, ih]

theorem getElem?_rewriteDirectory (p s1 s2 mask : Nat) (dir : List Nat) :
    ∀ i j, (rewriteDirectory p s1 s2 mask i dir)[j]? =
      dir[j]?.map (fun q =>
        if q = p then (if (i + j) &&& mask ≠ 0 then s2 else s1) else q) := by
  induction dir with
  | nil => intro i j; simp [rewriteDirectory]
  | cons q rest ih =>
    intro i j
    cases j with
    | zero => simp [rewriteDirectory]
    | succ j =>
      simp only [rewriteDirectory, List.getElem?_cons_succ, ih]
      have : i + 1 + j = i + (j + 1) := by omega
      rw [this]

theorem mem_rewriteDirectory {p s1 s2 mask x : Nat} {dir : List Nat} :
    ∀ {i}, x ∈ rewriteDirectory p s1 s2 mask i dir →
      x = s1 ∨ x = s2 ∨ (x ∈ dir ∧ x ≠ p) := by
  induction dir with
  | nil => intro i h; simp [rewriteDirectory] at h
  | cons q rest ih =>
    intro i h
    simp only [rewriteDirectory, List.mem_cons] at h
    rcases h with h | h
    · by_cases hq : q = p
      · rw [if_pos hq] at h
        by_cases hb : i &&& mask ≠ 0
        · rw [if_pos hb] at h; exact Or.inr (Or.inl h)
        · rw [if_neg hb] at h; exact Or.inl h
      · rw [if_neg hq] at h
        subst h
        exact Or.inr (Or.inr ⟨List.mem_cons_self _ _, hq⟩)
    · rcases ih h with h1 | h2 | ⟨h3, h4⟩
      · exact Or.inl h1
      · exact Or.inr (Or.inl h2)
      · exact Or.inr (Or.inr ⟨List.mem_cons_of_mem _ h3, h4⟩)

omit [DecidableEq K] in
theorem getBucket_eq (HashKey : K → Nat) (t : ExtendibleHash K V) (key : K) :
    getBucket HashKey t key = t.bucketDirectory.getD (HashKey key % 2 ^ t.globalDepth) 0 := by
  simp only [getBucket, getBucketIndex_eq_mod]

omit [DecidableEq K] in
theorem WF.index_lt {t : ExtendibleHash K V} (hwf : WF t) (h : Nat) :
    h % 2 ^ t.globalDepth < t.bucketDirectory.length := by
  rw [hwf.length_eq]
  exact Nat.mod_lt _ (Nat.two_pow_pos _)

omit [DecidableEq K] in
theorem WF.getD_mem {t : ExtendibleHash K V} (hwf : WF t) (h : Nat) :
    t.bucketDirectory.getD (h % 2 ^ t.globalDepth) 0 ∈ t.bucketDirectory := by
  rw [List.getD_eq_getElem _ _ (hwf.index_lt h)]
  exact List.getElem_mem _

omit [DecidableEq K] in
theorem WF.getBucket_mem {t : ExtendibleHash K V} (hwf : WF t) (HashKey : K → Nat)
    (key : K) : getBucket HashKey t key ∈ t.bucketDirectory := by
  rw [getBucket_eq]
  exact hwf.getD_mem _

omit [DecidableEq K] in
theorem growDirectory_heap (t : ExtendibleHash K V) (p : Nat) :
    (growDirectory t p).heap = t.heap := by
  unfold growDirectory
  split <;> rfl

omit [DecidableEq K] in
theorem growDirectory_mem (t : ExtendibleHash K V) (p q : Nat) :
    q ∈ (growDirectory t p).bucketDirectory ↔ q ∈ t.bucketDirectory := by
  unfold growDirectory
  split <;> simp

omit [DecidableEq K] in
theorem growDirectory_length {t : ExtendibleHash K V} (hwf : WF t) (p : Nat) :
    (growDirectory t p).bucketDirectory.length = 2 ^ (growDirectory t p).globalDepth := by
  unfold growDirectory
  split
  · simp [hwf.length_eq, Nat.pow_succ]
    omega
  · exact hwf.length_eq

omit [DecidableEq K] in
theorem growDirectory_depth_le (t : ExtendibleHash K V) (p : Nat) :
    t.globalDepth ≤ (growDirectory t p).globalDepth := by
  unfold growDirectory
  split
  · exact Nat.le_succ _
  · exact Nat.le_refl _

omit [DecidableEq K] in
theorem growDirectory_depth_lt {t : ExtendibleHash K V} (hwf : WF t) {p : Nat}
    (hp : p ∈ t.bucketDirectory) :
    (t.deref p).localDepth < (growDirectory t p).globalDepth := by
  have hle := hwf.depth_le p hp
  unfold growDirectory
  split
  · show (t.deref p).localDepth < t.globalDepth + 1
    omega
  · omega

omit [DecidableEq K] in
theorem growDirectory_lookup {t : ExtendibleHash K V} (hwf : WF t) (p h : Nat) :
    (growDirectory t p).bucketDirectory.getD (h % 2 ^ (growDirectory t p).globalDepth) 0 =
      t.bucketDirectory.getD (h % 2 ^ t.globalDepth) 0 := by
  unfold growDirectory
  split
  · show (t.bucketDirectory ++ t.bucketDirectory).getD (h % 2 ^ (t.globalDepth + 1)) 0 = _
    have hlt := hwf.index_lt h
    have hlen := hwf.length_eq
    rw [Nat.mod_pow_succ]
    rcases Nat.mod_two_eq_zero_or_one (h / 2 ^ t.globalDepth) with h0 | h1
    · rw [h0, Nat.mul_zero, Nat.add_zero]
      exact List.getD_append _ _ _ _ hlt
    · rw [h1, Nat.mul_one]
      rw [List.getD_append_right _ _ _ _ (by omega)]
      congr 1
      omega
  · rfl

theorem deref_splitBucket_old (HashKey : K → Nat) (t : ExtendibleHash K V) (p : Nat)
    {q : Nat} (hq : q < t.heap.length) :
    (splitBucket HashKey t p).deref q = t.deref q := by
  show (t.heap ++ _).getD q _ = t.heap.getD q _
  exact List.getD_append _ _ _ _ hq

theorem deref_splitBucket_fst (HashKey : K → Nat) (t : ExtendibleHash K V) (p : Nat) :
    (splitBucket HashKey t p).deref t.heap.length =
      ⟨(t.deref p).localDepth + 1,
        (redistribute HashKey (1 <<< (t.deref p).localDepth) (t.deref p).contents).1⟩ := by
  show (t.heap ++ _).getD t.heap.length _ = _
  rw [List.getD_append_right _ _ _ _ (Nat.le_refl _)]
  simp

theorem deref_splitBucket_snd (HashKey : K → Nat) (t : ExtendibleHash K V) (p : Nat) :
    (splitBucket HashKey t p).deref (t.heap.length + 1) =
      ⟨(t.deref p).localDepth + 1,
        (redistribute HashKey (1 <<< (t.deref p).localDepth) (t.deref p).contents).2⟩ := by
  show (t.heap ++ _).getD (t.heap.length + 1) _ = _
  rw [List.getD_append_right _ _ _ _ (Nat.le_succ _)]
  simp

theorem getBucket_splitBucket (HashKey : K → Nat) {t : ExtendibleHash K V} (hwf : WF t)
    {p : Nat} (hp : p ∈ t.bucketDirectory) (key : K) :
    getBucket HashKey (splitBucket HashKey t p) key =
      if getBucket HashKey t key = p then
        (if HashKey key &&& (1 <<< (t.deref p).localDepth) ≠ 0 then t.heap.length + 1
         else t.heap.length)
      else getBucket HashKey t key := by
  have hlen := growDirectory_length hwf p
  have hidx : HashKey key % 2 ^ (growDirectory t p).globalDepth <
      (growDirectory t p).bucketDirectory.length := by
    rw [hlen]
    exact Nat.mod_lt _ (Nat.two_pow_pos _)
  have hlook := growDirectory_lookup hwf p (HashKey key)
  rw [List.getD_eq_getElem _ _ hidx] at hlook
  have hbit : ((0 + HashKey key % 2 ^ (growDirectory t p).globalDepth) &&&
      (1 <<< (t.deref p).localDepth) ≠ 0) ↔
      (HashKey key &&& (1 <<< (t.deref p).localDepth) ≠ 0) := by
    rw [and_mask_ne_zero_iff, and_mask_ne_zero_iff, Nat.zero_add, Nat.testBit_mod_two_pow]
    simp [growDirectory_depth_lt hwf hp]
  rw [getBucket_eq, getBucket_eq]
  show (rewriteDirectory p t.heap.length (t.heap.length + 1)
      (1 <<< (t.deref p).localDepth) 0 (growDirectory t p).bucketDirectory).getD
      (HashKey key % 2 ^ (growDirectory t p).globalDepth) 0 = _
  rw [List.getD_eq_getElem?_getD, getElem?_rewriteDirectory,
    List.getElem?_eq_getElem hidx, hlook]
  simp only [Option.map_some', Option.getD_some]
  by_cases hq : t.bucketDirectory.getD (HashKey key % 2 ^ t.globalDepth) 0 = p
  · rw [if_pos hq, if_pos hq]
    by_cases hb : HashKey key &&& (1 <<< (t.deref p).localDepth) ≠ 0
    · rw [if_pos hb, if_pos (hbit.mpr hb)]
    · rw [if_neg hb, if_neg (fun h => hb (hbit.mp h))]
  · rw [if_neg hq, if_neg hq]

theorem Find_splitBucket (HashKey : K → Nat) {t : ExtendibleHash K V} (hwf : WF t)
    {p : Nat} (hp : p ∈ t.bucketDirectory) (key : K) :
    Find HashKey (splitBucket HashKey t p) key = Find HashKey t key := by
  unfold Find
  rw [getBucket_splitBucket HashKey hwf hp]
  by_cases hq : getBucket HashKey t key = p
  · rw [if_pos hq, hq]
    by_cases hb : HashKey key &&& (1 <<< (t.deref p).localDepth) ≠ 0
    · rw [if_pos hb, deref_splitBucket_snd]
      simp only [mapFind_redistribute_snd, if_pos hb]
    · rw [if_neg hb, deref_splitBucket_fst]
      simp only [mapFind_redistribute_fst, if_neg hb]
  · rw [if_neg hq, deref_splitBucket_old HashKey t p
      (hwf.ptr_lt _ (hwf.getBucket_mem HashKey key))]

theorem splitBucket_wf (HashKey : K → Nat) {t : ExtendibleHash K V} (hwf : WF t)
    {p : Nat} (hp : p ∈ t.bucketDirectory) : WF (splitBucket HashKey t p) := by
  have hlt := growDirectory_depth_lt hwf hp
  have hle := growDirectory_depth_le t p
  have hheap : (splitBucket HashKey t p).heap.length = t.heap.length + 2 := by
    show (t.heap ++ _).length = _
    simp
  refine ⟨?_, ?_, ?_⟩
  · show (rewriteDirectory _ _ _ _ _ _).length = 2 ^ (growDirectory t p).globalDepth
    rw [length_rewriteDirectory]
    exact growDirectory_length hwf p
  · intro q hq
    rw [hheap]
    rcases mem_rewriteDirectory hq with h | h | ⟨h, _⟩
    · omega
    · omega
    · have := hwf.ptr_lt q ((growDirectory_mem t p q).mp h)
      omega
  · intro q hq
    show _ ≤ (growDirectory t p).globalDepth
    rcases mem_rewriteDirectory hq with h | h | ⟨h, _⟩
    · rw [h, deref_splitBucket_fst]
      exact hlt
    · rw [h, deref_splitBucket_snd]
      exact hlt
    · have hmem := (growDirectory_mem t p q).mp h
      rw [deref_splitBucket_old HashKey t p (hwf.ptr_lt q hmem)]
      exact Nat.le_trans (hwf.depth_le q hmem) hle

omit [DecidableEq K] in
theorem deref_modifyContents_self (t : ExtendibleHash K V) {p : Nat}
    (hp : p < t.heap.length) (f : List (K × V) → List (K × V)) :
    (t.modifyContents p f).deref p = ⟨(t.deref p).localDepth, f (t.deref p).contents⟩ := by
  show (t.heap.set p _).getD p _ = _
  rw [List.getD_eq_getElem?_getD, List.getElem?_set_self hp]
  rfl

omit [DecidableEq K] in
theorem deref_modifyContents_ne (t : ExtendibleHash K V) {p q : Nat} (hq : q ≠ p)
    (f : List (K × V) → List (K × V)) :
    (t.modifyContents p f).deref q = t.deref q := by
  show (t.heap.set p _).getD q _ = t.heap.getD q _
  rw [List.getD_eq_getElem?_getD, List.getD_eq_getElem?_getD,
    List.getElem?_set_ne (fun h => hq h.symm)]

omit [DecidableEq K] in
theorem localDepth_modifyContents (t : ExtendibleHash K V) (p q : Nat)
    (f : List (K × V) → List (K × V)) :
    ((t.modifyContents p f).deref q).localDepth = (t.deref q).localDepth := by
  by_cases hq : q = p
  · subst hq
    by_cases hlt : q < t.heap.length
    · rw [deref_modifyContents_self t hlt]
    · show ((t.heap.set q _).getD q _).localDepth = (t.heap.getD q _).localDepth
      rw [List.getD_eq_getElem?_getD, List.getD_eq_getElem?_getD, List.getElem?_set]
      have hnone : t.heap[q]? = none := List.getElem?_eq_none (Nat.le_of_not_lt hlt)
      simp [hlt, hnone]
  · rw [deref_modifyContents_ne t hq]

omit [DecidableEq K] in
theorem modifyContents_wf {t : ExtendibleHash K V} (hwf : WF t) (p : Nat)
    (f : List (K × V) → List (K × V)) : WF (t.modifyContents p f) := by
  refine ⟨hwf.length_eq, ?_, ?_⟩
  · intro q hq
    show q < (t.heap.set p _).length
    rw [List.length_set]
    exact hwf.ptr_lt q hq
  · intro q hq
    rw [localDepth_modifyContents]
    exact hwf.depth_le q hq

omit [DecidableEq K] in
theorem getBucket_modifyContents (HashKey : K → Nat) (t : ExtendibleHash K V) (p : Nat)
    (f : List (K × V) → List (K × V)) (key : K) :
    getBucket HashKey (t.modifyContents p f) key = getBucket HashKey t key := rfl

theorem store_eq (HashKey : K → Nat) (t : ExtendibleHash K V) (key : K) (value : V) :
    store HashKey t key value =
      t.modifyContents (getBucket HashKey t key) (mapAssign key value) := rfl

theorem Find_store_self (HashKey : K → Nat) {t : ExtendibleHash K V} (hwf : WF t)
    (key : K) (value : V) : Find HashKey (store HashKey t key value) key = some value := by
  rw [store_eq]
  unfold Find
  rw [getBucket_modifyContents,
    deref_modifyContents_self t (hwf.ptr_lt _ (hwf.getBucket_mem HashKey key))]
  exact mapFind_mapAssign_self key value _

theorem Find_store_ne (HashKey : K → Nat) {t : ExtendibleHash K V} (hwf : WF t)
    {key key' : K} (h : key' ≠ key) (value : V) :
    Find HashKey (store HashKey t key value) key' = Find HashKey t key' := by
  rw [store_eq]
  unfold Find
  rw [getBucket_modifyContents]
  by_cases hq : getBucket HashKey t key' = getBucket HashKey t key
  · rw [hq, deref_modifyContents_self t (hwf.ptr_lt _ (hwf.getBucket_mem HashKey key))]
    exact mapFind_mapAssign_ne h value _
  · rw [deref_modifyContents_ne t hq]

theorem insertLoop_spec (HashKey : K → Nat) :
    ∀ (fuel : Nat) (t t' : ExtendibleHash K V) (key : K), WF t →
      insertLoop HashKey fuel t key = some t' →
      WF t' ∧ (∀ k, Find HashKey t' k = Find HashKey t k) ∧
        t'.bucketSizeLimit = t.bucketSizeLimit := by
  intro fuel
  induction fuel with
  | zero => intro t t' key _ h; simp [insertLoop] at h
  | succ fuel ih =>
    intro t t' key hwf h
    simp only [insertLoop] at h
    split at h
    · split at h
      · exact Option.noConfusion h
      · have hmem := hwf.getBucket_mem HashKey key
        obtain ⟨h1, h2, h3⟩ := ih _ t' key (splitBucket_wf HashKey hwf hmem) h
        refine ⟨h1, ?_, ?_⟩
        · intro k
          rw [h2 k, Find_splitBucket HashKey hwf hmem]
        · rw [h3]
          show (growDirectory t _).bucketSizeLimit = _
          unfold growDirectory
          split <;> rfl
    · cases h
      exact ⟨hwf, fun _ => rfl, rfl⟩

omit [DecidableEq K] in
theorem new_wf (size : Nat) : WF (new size : ExtendibleHash K V) := by
  refine ⟨rfl, ?_, ?_⟩
  · intro q hq
    simp [new] at hq
    subst hq
    simp [new]
  · intro q hq
    simp [new] at hq
    subst hq
    simp [new, deref]

theorem Remove_wf (HashKey : K → Nat) {t : ExtendibleHash K V} (hwf : WF t) (key : K) :
    WF (Remove HashKey t key).2 := by
  unfold Remove
  simp only
  split
  · exact modifyContents_wf hwf _ _
  · exact hwf

theorem Insert_wf (HashKey : K → Nat) {fuel : Nat} {t t' : ExtendibleHash K V} {key : K}
    {value : V} (hwf : WF t) (h : Insert HashKey fuel t key value = some t') : WF t' := by
  unfold Insert at h
  cases hloop : insertLoop HashKey fuel t key with
  | none => simp [hloop] at h
  | some t₁ =>
    simp only [hloop, Option.map_some', Option.some.injEq] at h
    subst h
    rw [store_eq]
    exact modifyContents_wf (insertLoop_spec HashKey fuel t t₁ key hwf hloop).1 _ _

theorem Reachable.wf {HashKey : K → Nat} {size : Nat} {t : ExtendibleHash K V}
    (h : Reachable HashKey size t) : WF t := by
  induction h with
  | init => exact new_wf size
  | insert fuel key value _ hins ih => exact Insert_wf HashKey ih hins
  | remove key _ ih => exact Remove_wf HashKey ih key

theorem insertLoop_present_capacity_one (HashKey : K → Nat) (key : K) :
    ∀ (fuel : Nat) (t : ExtendibleHash K V), WF t → t.bucketSizeLimit = 1 →
      (∃ v, (t.deref (getBucket HashKey t key)).contents = [(key, v)]) →
      insertLoop HashKey fuel t key = none := by
  intro fuel
  induction fuel with
  | zero => intro t _ _ _; rfl
  | succ fuel ih =>
    intro t hwf hcap hfull
    obtain ⟨v, hv⟩ := hfull
    have hmem := hwf.getBucket_mem HashKey key
    have hlen : (t.deref (getBucket HashKey t key)).contents.length = t.bucketSizeLimit := by
      rw [hv, hcap]; rfl
    simp only [insertLoop]
    rw [if_pos hlen]
    split
    · rfl
    · apply ih _ (splitBucket_wf HashKey hwf hmem)
      · show (growDirectory t _).bucketSizeLimit = 1
        unfold growDirectory
        split
        · exact hcap
        · exact hcap
      · refine ⟨v, ?_⟩
        rw [getBucket_splitBucket HashKey hwf hmem, if_pos rfl]
        by_cases hb : HashKey key &&&
            (1 <<< (t.deref (getBucket HashKey t key)).localDepth) ≠ 0
        · rw [if_pos hb, deref_splitBucket_snd, hv]
          simp [redistribute, hb, mapInsert, mapFind]
        · rw [if_neg hb, deref_splitBucket_fst, hv]
          have hb' : HashKey key &&&
              (1 <<< (t.deref (getBucket HashKey t key)).localDepth) = 0 :=
            Decidable.of_not_not hb
          simp [redistribute, hb', mapInsert, mapFind]

/-! ## Claims on the extendible hash table -/

/-- C1. Insert/Find round trip: on a table reachable from the constructor, when
`Insert(key, value)` returns, `Find(key)` yields `value` and `Find` of every
other key yields what it yielded before the call, whatever number of bucket
splits and directory doublings the call went through. -/
theorem Insert_Find_round_trip (HashKey : K → Nat) (size : Nat)
    {t t' : ExtendibleHash K V} (hreach : Reachable HashKey size t) (fuel : Nat)
    (key : K) (value : V) (hins : Insert HashKey fuel t key value = some t') :
    Find HashKey t' key = some value ∧
      ∀ key', key' ≠ key → Find HashKey t' key' = Find HashKey t key' := by
  have hwf := hreach.wf
  unfold Insert at hins
  cases hloop : insertLoop HashKey fuel t key with
  | none => simp [hloop] at hins
  | some t₁ =>
    simp only [hloop, Option.map_some', Option.some.injEq] at hins
    subst hins
    obtain ⟨hwf₁, hfind, _⟩ := insertLoop_spec HashKey fuel t t₁ key hwf hloop
    refine ⟨Find_store_self HashKey hwf₁ key value, ?_⟩
    intro key' hne
    rw [Find_store_ne HashKey hwf₁ hne, hfind]

/-- Witness for C1: capacity 2, identity hash, the table holding keys 0 and 2;
`Insert(4, 41)` doubles the directory twice and splits twice. -/
theorem Insert_Find_round_trip_witness :
    Insert id 4 (⟨0, 2, [0], [⟨0, [(0, 10), (2, 12)]⟩]⟩ : ExtendibleHash Nat Nat) 4 41 =
        some ⟨2, 2, [3, 2, 4, 2],
          [⟨0, [(0, 10), (2, 12)]⟩, ⟨1, [(0, 10), (2, 12)]⟩, ⟨1, []⟩,
            ⟨2, [(0, 10), (4, 41)]⟩, ⟨2, [(2, 12)]⟩]⟩ ∧
      Find id (⟨2, 2, [3, 2, 4, 2],
          [⟨0, [(0, 10), (2, 12)]⟩, ⟨1, [(0, 10), (2, 12)]⟩, ⟨1, []⟩,
            ⟨2, [(0, 10), (4, 41)]⟩, ⟨2, [(2, 12)]⟩]⟩ : ExtendibleHash Nat Nat) 4 = some 41 ∧
      Find id (⟨2, 2, [3, 2, 4, 2],
          [⟨0, [(0, 10), (2, 12)]⟩, ⟨1, [(0, 10), (2, 12)]⟩, ⟨1, []⟩,
            ⟨2, [(0, 10), (4, 41)]⟩, ⟨2, [(2, 12)]⟩]⟩ : ExtendibleHash Nat Nat) 2 =
        Find id (⟨0, 2, [0], [⟨0, [(0, 10), (2, 12)]⟩]⟩ : ExtendibleHash Nat Nat) 2 := by
  have h₀ : Reachable id 2 (⟨0, 2, [0], [⟨0, [(0, 10)]⟩]⟩ : ExtendibleHash Nat Nat) :=
    Reachable.insert 1 0 10 Reachable.init (by decide)
  have hreach : Reachable id 2
      (⟨0, 2, [0], [⟨0, [(0, 10), (2, 12)]⟩]⟩ : ExtendibleHash Nat Nat) :=
    Reachable.insert 1 2 12 h₀ (by decide)
  have hins : Insert id 4 (⟨0, 2, [0], [⟨0, [(0, 10), (2, 12)]⟩]⟩ : ExtendibleHash Nat Nat)
      4 41 = some ⟨2, 2, [3, 2, 4, 2],
          [⟨0, [(0, 10), (2, 12)]⟩, ⟨1, [(0, 10), (2, 12)]⟩, ⟨1, []⟩,
            ⟨2, [(0, 10), (4, 41)]⟩, ⟨2, [(2, 12)]⟩]⟩ := by decide
  have h := Insert_Find_round_trip id 2 hreach 4 4 41 hins
  exact ⟨hins, h.1, h.2 2 (by decide)⟩

/-- C2. Remove: on a reachable table `Remove(key)` returns true exactly when
`Find(key)` reported the key present; afterwards `Find(key)` reports absent,
`Find` of every other key is unchanged, and the global depth, the directory,
the number of buckets and the local depth of every bucket are unchanged. -/
theorem Remove_spec (HashKey : K → Nat) (size : Nat) {t : ExtendibleHash K V}
    (hreach : Reachable HashKey size t) (key : K) :
    ((Remove HashKey t key).1 = true ↔ (Find HashKey t key).isSome = true) ∧
      Find HashKey (Remove HashKey t key).2 key = none ∧
      (∀ key', key' ≠ key →
        Find HashKey (Remove HashKey t key).2 key' = Find HashKey t key') ∧
      (Remove HashKey t key).2.globalDepth = t.globalDepth ∧
      (Remove HashKey t key).2.bucketDirectory = t.bucketDirectory ∧
      (Remove HashKey t key).2.heap.length = t.heap.length ∧
      ∀ p, ((Remove HashKey t key).2.deref p).localDepth = (t.deref p).localDepth := by
  have hwf := hreach.wf
  have hlt := hwf.ptr_lt _ (hwf.getBucket_mem HashKey key)
  unfold Remove
  simp only
  cases hfind : mapFind key (t.deref (getBucket HashKey t key)).contents with
  | none =>
    have hF : Find HashKey t key = none := hfind
    simp [hF]
  | some v =>
    have hF : Find HashKey t key = some v := hfind
    refine ⟨by simp [hF], ?_, ?_, rfl, rfl, ?_, ?_⟩
    · show mapFind key ((t.modifyContents _ _).deref (getBucket HashKey t key)).contents = none
      rw [deref_modifyContents_self t hlt]
      exact mapFind_mapErase_self key _
    · intro key' hne
      show mapFind key' ((t.modifyContents _ _).deref (getBucket HashKey t key')).contents =
        mapFind key' (t.deref (getBucket HashKey t key')).contents
      by_cases hq : getBucket HashKey t key' = getBucket HashKey t key
      · rw [hq, deref_modifyContents_self t hlt]
        exact mapFind_mapErase_ne hne _
      · rw [deref_modifyContents_ne t hq]
    · show (t.heap.set _ _).length = _
      rw [List.length_set]
    · intro p
      exact localDepth_modifyContents t _ p _

/-- Witness for C2: capacity 2, identity hash, the table holding keys 0 and 1
after one split; key 1 is removed. -/
theorem Remove_spec_witness :
    (Remove id (⟨1, 2, [1, 2],
        [⟨0, [(0, 10), (1, 11)]⟩, ⟨1, [(0, 10), (2, 12)]⟩, ⟨1, [(1, 11)]⟩]⟩ :
        ExtendibleHash Nat Nat) 1).1 = true ∧
      Find id (Remove id (⟨1, 2, [1, 2],
        [⟨0, [(0, 10), (1, 11)]⟩, ⟨1, [(0, 10), (2, 12)]⟩, ⟨1, [(1, 11)]⟩]⟩ :
        ExtendibleHash Nat Nat) 1).2 1 = none := by
  have h₀ : Reachable id 2 (⟨0, 2, [0], [⟨0, [(0, 10)]⟩]⟩ : ExtendibleHash Nat Nat) :=
    Reachable.insert 1 0 10 Reachable.init (by decide)
  have h₁ : Reachable id 2
      (⟨0, 2, [0], [⟨0, [(0, 10), (1, 11)]⟩]⟩ : ExtendibleHash Nat Nat) :=
    Reachable.insert 1 1 11 h₀ (by decide)
  have hreach : Reachable id 2 (⟨1, 2, [1, 2],
      [⟨0, [(0, 10), (1, 11)]⟩, ⟨1, [(0, 10), (2, 12)]⟩, ⟨1, [(1, 11)]⟩]⟩ :
      ExtendibleHash Nat Nat) :=
    Reachable.insert 2 2 12 h₁ (by decide)
  have h := Remove_spec id 2 hreach 1
  exact ⟨h.1.mpr (by decide), h.2.1⟩

/-- C3 (code defect). `Insert` tests `contents.size() == bucketSizeLimit` before it
looks for the key.  Capacity 2, identity hash: after `Insert(0, 10)` and
`Insert(1, 11)` the single bucket is full and holds key 0; `Insert(0, 20)` then
doubles the directory and splits the bucket (global depth 0 becomes 1, the
directory `[0]` becomes `[1, 2]`) before it overwrites the value.  Capacity 1:
after `Insert(0, 10)` the call `Insert(0, 20)` never leaves the loop, whatever
the number of iterations granted. -/
theorem Insert_present_key_splits :
    Reachable id 2 (⟨0, 2, [0], [⟨0, [(0, 10), (1, 11)]⟩]⟩ : ExtendibleHash Nat Nat) ∧
      Find id (⟨0, 2, [0], [⟨0, [(0, 10), (1, 11)]⟩]⟩ : ExtendibleHash Nat Nat) 0 = some 10 ∧
      Insert id 2 (⟨0, 2, [0], [⟨0, [(0, 10), (1, 11)]⟩]⟩ : ExtendibleHash Nat Nat) 0 20 =
        some ⟨1, 2, [1, 2],
          [⟨0, [(0, 10), (1, 11)]⟩, ⟨1, [(0, 20)]⟩, ⟨1, [(1, 11)]⟩]⟩ ∧
      Reachable id 1 (⟨0, 1, [0], [⟨0, [(0, 10)]⟩]⟩ : ExtendibleHash Nat Nat) ∧
      ∀ fuel, Insert id fuel (⟨0, 1, [0], [⟨0, [(0, 10)]⟩]⟩ : ExtendibleHash Nat Nat) 0 20 =
        none := by
  have h₀ : Reachable id 2 (⟨0, 2, [0], [⟨0, [(0, 10)]⟩]⟩ : ExtendibleHash Nat Nat) :=
    Reachable.insert 1 0 10 Reachable.init (by decide)
  have h₁ : Reachable id 1 (⟨0, 1, [0], [⟨0, [(0, 10)]⟩]⟩ : ExtendibleHash Nat Nat) :=
    Reachable.insert 1 0 10 Reachable.init (by decide)
  refine ⟨Reachable.insert 1 1 11 h₀ (by decide), by decide, by decide, h₁, ?_⟩
  intro fuel
  unfold Insert
  rw [insertLoop_present_capacity_one id 0 fuel _ h₁.wf rfl ⟨10, by decide⟩]
  rfl

end ExtendibleHash

namespace LRUReplacer

variable {T : Type} [DecidableEq T]

/-! ## Lemmas on the LRU replacer -/

omit [DecidableEq T] in
theorem new_inv : Inv (new : LRUReplacer T) :=
  ⟨List.nodup_nil, List.nodup_nil, fun _ => Iff.rfl⟩

theorem Insert_lst {r : LRUReplacer T} (hinv : Inv r) (value : T) :
    (r.Insert value).lst = value :: r.lst.erase value := by
  unfold Insert
  by_cases h : value ∈ r.hash
  · simp [h]
  · have h' : value ∉ r.lst := fun hl => h ((hinv.mem_iff value).mpr hl)
    simp [h, List.erase_of_not_mem h']

theorem Insert_inv {r : LRUReplacer T} (hinv : Inv r) (value : T) : Inv (r.Insert value) := by
  refine ⟨?_, ?_, ?_⟩
  · rw [Insert_lst hinv]
    exact List.nodup_cons.mpr ⟨hinv.nodup_lst.not_mem_erase, hinv.nodup_lst.erase value⟩
  · unfold Insert
    by_cases h : value ∈ r.hash
    · simpa [h] using hinv.nodup_hash
    · simpa [h] using hinv.nodup_hash
  · intro x
    rw [Insert_lst hinv]
    unfold Insert
    by_cases h : value ∈ r.hash
    · have hl : value ∈ r.lst := (hinv.mem_iff value).mp h
      simp only [h, if_true, List.mem_cons, hinv.nodup_lst.mem_erase_iff, hinv.mem_iff x]
      constructor
      · intro hx
        by_cases hxv : x = value
        · exact Or.inl hxv
        · exact Or.inr ⟨hxv, hx⟩
      · rintro (hx | ⟨_, hx⟩)
        · rw [hx]; exact hl
        · exact hx
    · simp only [h, if_false, List.mem_cons, hinv.nodup_lst.mem_erase_iff, hinv.mem_iff x]
      constructor
      · rintro (hx | hx)
        · exact Or.inl hx
        · by_cases hxv : x = value
          · exact Or.inl hxv
          · exact Or.inr ⟨hxv, hx⟩
      · rintro (hx | ⟨_, hx⟩)
        · exact Or.inl hx
        · exact Or.inr hx

theorem Victim_of_getLast {r : LRUReplacer T} {last : T} (h : r.lst.getLast? = some last) :
    r.Victim = (some last, ⟨r.lst.dropLast, r.hash.erase last⟩) := by
  unfold Victim
  rw [h]

theorem Victim_inv {r : LRUReplacer T} (hinv : Inv r) : Inv r.Victim.2 := by
  cases hlast : r.lst.getLast? with
  | none =>
    have : r.Victim = (none, r) := by unfold Victim; rw [hlast]
    rw [this]
    exact hinv
  | some last =>
    rw [Victim_of_getLast hlast]
    have hsplit : r.lst.dropLast ++ [last] = r.lst :=
      List.dropLast_append_getLast? last (by rw [hlast]; exact rfl)
    have hnd : (r.lst.dropLast ++ [last]).Nodup := by rw [hsplit]; exact hinv.nodup_lst
    have hnotin : last ∉ r.lst.dropLast := by
      intro hmem
      exact (List.nodup_append.mp hnd).2.2 hmem (List.mem_singleton_self last)
    refine ⟨(List.nodup_append.mp hnd).1, hinv.nodup_hash.erase last, ?_⟩
    intro x
    show x ∈ r.hash.erase last ↔ x ∈ r.lst.dropLast
    rw [hinv.nodup_hash.mem_erase_iff, hinv.mem_iff x]
    constructor
    · rintro ⟨hne, hx⟩
      rw [← hsplit] at hx
      rcases List.mem_append.mp hx with h1 | h2
      · exact h1
      · exact absurd (List.mem_singleton.mp h2) hne
    · intro hx
      refine ⟨fun hxl => hnotin (hxl ▸ hx), ?_⟩
      rw [← hsplit]
      exact List.mem_append_left _ hx

theorem Erase_inv {r : LRUReplacer T} (hinv : Inv r) (value : T) : Inv (r.Erase value).2 := by
  unfold Erase
  by_cases h : value ∈ r.hash
  · rw [if_pos h]
    refine ⟨hinv.nodup_lst.erase value, hinv.nodup_hash.erase value, ?_⟩
    intro x
    show x ∈ r.hash.erase value ↔ x ∈ r.lst.erase value
    rw [hinv.nodup_hash.mem_erase_iff, hinv.nodup_lst.mem_erase_iff, hinv.mem_iff x]
  · rw [if_neg h]
    exact hinv

theorem Reachable.inv {r : LRUReplacer T} (h : Reachable r) : Inv r := by
  induction h with
  | init => exact new_inv
  | insert value _ ih => exact Insert_inv ih value
  | victim _ ih => exact Victim_inv ih
  | erase value _ ih => exact Erase_inv ih value

theorem insertAll_inv (values : List T) :
    ∀ {r : LRUReplacer T}, Inv r → Inv (r.insertAll values) := by
  induction values with
  | nil => intro r h; exact h
  | cons x xs ih => intro r h; exact ih (Insert_inv h x)

theorem insertAll_lst (values : List T) :
    ∀ {r : LRUReplacer T}, Inv r →
      (r.insertAll values).lst =
        (lastInsertOrder values).reverse ++ r.lst.filter (fun y => decide (y ∉ values)) := by
  induction values with
  | nil => intro r _; simp [insertAll, lastInsertOrder]
  | cons x xs ih =>
    intro r hinv
    show ((r.Insert x).insertAll xs).lst = _
    rw [ih (Insert_inv hinv x), Insert_lst hinv, hinv.nodup_lst.erase_eq_filter]
    by_cases hx : x ∈ xs
    · have hlo : lastInsertOrder (x :: xs) = lastInsertOrder xs := by
        simp [lastInsertOrder, hx]
      rw [hlo]
      congr 1
      simp only [List.filter_cons, hx, not_true_eq_false, decide_False, List.filter_filter]
      apply List.filter_congr
      intro y _
      by_cases hy : y ∈ xs
      · simp [hy]
      · have : y ≠ x := fun h => hy (h ▸ hx)
        simp [hy, this]
    · have hlo : lastInsertOrder (x :: xs) = x :: lastInsertOrder xs := by
        simp [lastInsertOrder, hx]
      rw [hlo, List.reverse_cons, List.append_assoc]
      congr 1
      simp only [List.filter_cons, hx, not_false_eq_true, decide_True, List.filter_filter,
        List.singleton_append, if_true]
      congr 1
      apply List.filter_congr
      intro y _
      by_cases hy : y ∈ xs
      · simp [hy]
      · by_cases hyx : y = x
        · simp [hyx]
        · simp [hy, hyx]

theorem victims_all :
    ∀ (n : Nat) {r : LRUReplacer T}, Inv r → r.lst.length = n →
      victims (n + 1) r = (r.lst.reverse.map some ++ [none], new) := by
  intro n
  induction n with
  | zero =>
    intro r hinv hlen
    have hl : r.lst = [] := List.length_eq_zero.mp hlen
    have hh : r.hash = [] :=
      List.eq_nil_iff_forall_not_mem.mpr (fun a ha => by
        have := (hinv.mem_iff a).mp ha
        rw [hl] at this
        exact List.not_mem_nil a this)
    have hr : r = new := by
      cases r
      simp only [new] at *
      simp [hl, hh]
    subst hr
    rfl
  | succ n ih =>
    intro r hinv hlen
    cases hlast : r.lst.getLast? with
    | none =>
      rw [List.getLast?_eq_none_iff.mp hlast] at hlen
      exact absurd hlen (by simp)
    | some last =>
      have hsplit : r.lst.dropLast ++ [last] = r.lst :=
        List.dropLast_append_getLast? last (by rw [hlast]; exact rfl)
      have hV := Victim_of_getLast hlast
      have hinv' : Inv r.Victim.2 := Victim_inv hinv
      have hlen' : r.Victim.2.lst.length = n := by
        rw [hV]
        show r.lst.dropLast.length = n
        rw [List.length_dropLast, hlen]
        rfl
      have hrec := ih hinv' hlen'
      show (r.Victim.1 :: (victims (n + 1) r.Victim.2).1, (victims (n + 1) r.Victim.2).2) = _
      rw [hrec, hV]
      show (some last :: (r.lst.dropLast.reverse.map some ++ [none]), new) = _
      rw [← hsplit]
      simp

theorem victims_fst_length (n : Nat) : ∀ r : LRUReplacer T, (victims n r).1.length = n := by
  induction n with
  | zero => intro r; rfl
  | succ n ih => intro r; simp [victims, ih]

theorem lastInsertOrder_mem (values : List T) (x : T) :
    x ∈ lastInsertOrder values ↔ x ∈ values := by
  induction values with
  | nil => simp [lastInsertOrder]
  | cons y ys ih =>
    unfold lastInsertOrder
    by_cases hy : y ∈ ys
    · rw [if_pos hy, ih, List.mem_cons]
      constructor
      · exact Or.inr
      · rintro (h | h)
        · rw [h]; exact hy
        · exact h
    · rw [if_neg hy, List.mem_cons, List.mem_cons, ih]

theorem lastInsertOrder_nodup (values : List T) : (lastInsertOrder values).Nodup := by
  induction values with
  | nil => simp [lastInsertOrder]
  | cons y ys ih =>
    unfold lastInsertOrder
    by_cases hy : y ∈ ys
    · rw [if_pos hy]; exact ih
    · rw [if_neg hy]
      exact List.nodup_cons.mpr ⟨fun h => hy ((lastInsertOrder_mem ys y).mp h), ih⟩

/-! ## Claims on the LRU replacer -/

/-- C4. Victim order: after any sequence `values` of `Insert` calls on an empty
replacer, `Size()` is the number of distinct values, the next `Size()` calls
of `Victim` return true and yield the distinct values in the order of their
last insert, oldest first, and one more `Victim` returns false and leaves the
replacer empty.  For distinct `a`, `b`, `c` the inserts `a, b, c` give the
victims `a, b, c` and the inserts `a, b, c, a` give `b, c, a`. -/
theorem victim_order (values : List T) :
    ((new : LRUReplacer T).insertAll values).Size = (lastInsertOrder values).length ∧
      victims (((new : LRUReplacer T).insertAll values).Size + 1)
          ((new : LRUReplacer T).insertAll values) =
        ((lastInsertOrder values).map some ++ [none], new) ∧
      (lastInsertOrder values).Nodup ∧
      (∀ x, x ∈ lastInsertOrder values ↔ x ∈ values) ∧
      (∀ a b c : T, a ≠ b → a ≠ c → b ≠ c →
        (victims 3 ((((new : LRUReplacer T).Insert a).Insert b).Insert c)).1 =
            [some a, some b, some c] ∧
          (victims 3 (((((new : LRUReplacer T).Insert a).Insert b).Insert c).Insert a)).1 =
            [some b, some c, some a]) := by
  have hinv : Inv ((new : LRUReplacer T).insertAll values) := insertAll_inv values new_inv
  have hlst : ((new : LRUReplacer T).insertAll values).lst = (lastInsertOrder values).reverse := by
    rw [insertAll_lst values new_inv]
    simp [new]
  have hsize : ((new : LRUReplacer T).insertAll values).Size = (lastInsertOrder values).length := by
    unfold Size
    rw [hlst, List.length_reverse]
  refine ⟨hsize, ?_, lastInsertOrder_nodup values, lastInsertOrder_mem values, ?_⟩
  · have hv := victims_all _ hinv (rfl : (insertAll new values).lst.length = _)
    rw [hlst, List.reverse_reverse] at hv
    rw [hsize]
    rw [List.length_reverse] at hv
    exact hv
  · intro a b c hab hac hbc
    have hba : b ≠ a := fun h => hab h.symm
    have hca : c ≠ a := fun h => hac h.symm
    have hcb : c ≠ b := fun h => hbc h.symm
    constructor
    · simp [victims, Victim, Insert, new, hab, hac, hbc, hba, hca, hcb]
    · simp [victims, Victim, Insert, new, hab, hac, hbc, hba, hca, hcb]

/-- C5. Erase: on a reachable replacer `Erase(value)` returns true exactly when
`value` is present; when it returns true the value is gone, `Size()` has
dropped by one and the other items keep their order; when it returns false
the replacer is unchanged. -/
theorem Erase_spec {r : LRUReplacer T} (hreach : Reachable r) (value : T) :
    ((r.Erase value).1 = true ↔ value ∈ r.lst) ∧
      ((r.Erase value).1 = true →
        value ∉ (r.Erase value).2.lst ∧
        (r.Erase value).2.Size + 1 = r.Size ∧
        (r.Erase value).2.lst = r.lst.filter (fun x => decide (x ≠ value))) ∧
      ((r.Erase value).1 = false → (r.Erase value).2 = r) := by
  have hinv := hreach.inv
  unfold Erase
  by_cases h : value ∈ r.hash
  · have hl : value ∈ r.lst := (hinv.mem_iff value).mp h
    simp only [if_pos h, true_iff, forall_const]
    refine ⟨hl, ⟨hinv.nodup_lst.not_mem_erase, ?_, ?_⟩, ?_⟩
    · unfold Size
      show (r.lst.erase value).length + 1 = r.lst.length
      rw [List.length_erase_of_mem hl]
      have : 0 < r.lst.length := List.length_pos_of_mem hl
      omega
    · show r.lst.erase value = _
      rw [hinv.nodup_lst.erase_eq_filter]
      apply List.filter_congr
      intro x _
      by_cases hx : x = value <;> simp [hx]
    · intro hcontra
      exact absurd hcontra (by simp)
  · have hl : value ∉ r.lst := fun hl => h ((hinv.mem_iff value).mpr hl)
    simp only [if_neg h]
    refine ⟨?_, ?_, fun _ => trivial⟩
    · constructor
      · intro hcontra
        exact absurd hcontra (by simp)
      · intro hcontra
        exact absurd hcontra hl
    · intro hcontra
      exact absurd hcontra (by simp)

/-- Witness for C5: the replacer after `Insert(1); Insert(2); Insert(3)`, from
which 2 is erased. -/
theorem Erase_spec_witness :
    ((⟨[3, 2, 1], [3, 2, 1]⟩ : LRUReplacer Nat).Erase 2).1 = true ∧
      ((⟨[3, 2, 1], [3, 2, 1]⟩ : LRUReplacer Nat).Erase 2).2.lst = [3, 1] := by
  have hreach : Reachable (⟨[3, 2, 1], [3, 2, 1]⟩ : LRUReplacer Nat) :=
    Reachable.insert 3 (Reachable.insert 2 (Reachable.insert 1 Reachable.init))
  have h := Erase_spec hreach 2
  exact ⟨h.1.mpr (by decide), by decide⟩

end LRUReplacer

/-! ## Lemmas on the buffer pool manager -/

theorem mapFind_mapAssign_some {K V : Type} [DecidableEq K] {key key' : K} {value v : V}
    {m : List (K × V)} (h : mapFind key' (mapAssign key value m) = some v) :
    v = value ∨ mapFind key' m = some v := by
  by_cases hk : key' = key
  · subst hk
    rw [mapFind_mapAssign_self] at h
    exact Or.inl (Option.some.inj h).symm
  · rw [mapFind_mapAssign_ne hk] at h
    exact Or.inr h

theorem mapFind_mapErase_some {K V : Type} [DecidableEq K] {key key' : K} {v : V}
    {m : List (K × V)} (h : mapFind key' (mapErase key m) = some v) :
    mapFind key' m = some v := by
  by_cases hk : key' = key
  · subst hk
    rw [mapFind_mapErase_self] at h
    exact Option.noConfusion h
  · rw [mapFind_mapErase_ne hk] at h
    exact h

theorem LRUReplacer.mem_Insert_lst {T : Type} [DecidableEq T] {r : LRUReplacer T}
    {value x : T} (h : x ∈ (r.Insert value).lst) : x = value ∨ x ∈ r.lst := by
  unfold LRUReplacer.Insert at h
  simp only [List.mem_cons] at h
  rcases h with h | h
  · exact Or.inl h
  · split at h
    · exact Or.inr (List.mem_of_mem_erase h)
    · exact Or.inr h

theorem LRUReplacer.mem_Victim_lst {T : Type} [DecidableEq T] {r : LRUReplacer T}
    {x : T} (h : x ∈ r.Victim.2.lst) : x ∈ r.lst := by
  unfold LRUReplacer.Victim at h
  split at h
  · exact h
  · exact (List.dropLast_sublist _).subset h

theorem LRUReplacer.Victim_fst_mem {T : Type} [DecidableEq T] {r : LRUReplacer T}
    {x : T} (h : r.Victim.1 = some x) : x ∈ r.lst := by
  unfold LRUReplacer.Victim at h
  split at h
  · exact Option.noConfusion h
  · rename_i last hlast
    cases h
    obtain ⟨ys, hys⟩ := List.getLast?_eq_some_iff.mp hlast
    rw [hys]
    exact List.mem_append_right _ (List.mem_singleton_self _)

namespace BufferPoolManager

theorem frame_setFrame_self (b : BufferPoolManager) {p : Nat} (hp : p < b.pages.length)
    (page : Page) : (b.setFrame p page).frame p = page := by
  show (b.pages.set p page).getD p _ = page
  rw [List.getD_eq_getElem?_getD, List.getElem?_set_self hp]
  rfl

theorem frame_setFrame_ne (b : BufferPoolManager) {p q : Nat} (hq : q ≠ p) (page : Page) :
    (b.setFrame p page).frame q = b.frame q := by
  show (b.pages.set p page).getD q _ = b.pages.getD q _
  rw [List.getD_eq_getElem?_getD, List.getD_eq_getElem?_getD,
    List.getElem?_set_ne (fun h => hq h.symm)]

theorem length_setFrame (b : BufferPoolManager) (p : Nat) (page : Page) :
    (b.setFrame p page).pages.length = b.pages.length := by
  show (b.pages.set p page).length = _
  rw [List.length_set]

/-- Transfer of `FramesValid` to a state whose pointers all come from a valid
state or designate a frame. -/
theorem FramesValid.transfer {b b' : BufferPoolManager} (h : FramesValid b)
    (hlen : b'.pages.length = b.pages.length)
    (ht : ∀ id p, mapFind id b'.page_table = some p →
      mapFind id b.page_table = some p ∨ p < b.pages.length)
    (hf : ∀ p ∈ b'.free_list, p ∈ b.free_list ∨ p < b.pages.length)
    (hr : ∀ p ∈ b'.replacer.lst, p ∈ b.replacer.lst ∨ p < b.pages.length) :
    FramesValid b' := by
  refine ⟨?_, ?_, ?_⟩
  · intro id p hp
    rw [hlen]
    rcases ht id p hp with h1 | h1
    · exact h.table_lt id p h1
    · exact h1
  · intro p hp
    rw [hlen]
    rcases hf p hp with h1 | h1
    · exact h.free_lt p h1
    · exact h1
  · intro p hp
    rw [hlen]
    rcases hr p hp with h1 | h1
    · exact h.replacer_lt p h1
    · exact h1

theorem setFrame_valid {b : BufferPoolManager} (h : FramesValid b) (p : Nat) (page : Page) :
    FramesValid (b.setFrame p page) :=
  h.transfer (length_setFrame b p page) (fun _ _ hp => Or.inl hp) (fun _ hp => Or.inl hp)
    (fun _ hp => Or.inl hp)

theorem pickReplacement_valid {b b₁ : BufferPoolManager} {replacement : Nat}
    (h : FramesValid b) (hpick : b.pickReplacement = some (replacement, b₁)) :
    FramesValid b₁ ∧ replacement < b.pages.length ∧ b₁.pages = b.pages ∧
      b₁.page_table = b.page_table ∧ b₁.disk_manager = b.disk_manager := by
  unfold pickReplacement at hpick
  split at hpick
  · rename_i r rest hfree
    cases hpick
    refine ⟨?_, h.free_lt _ (by rw [hfree]; exact List.mem_cons_self _ _), rfl, rfl, rfl⟩
    exact h.transfer rfl (fun _ _ hp => Or.inl hp)
      (fun p hp => Or.inl (by rw [hfree]; exact List.mem_cons_of_mem _ hp))
      (fun _ hp => Or.inl hp)
  · split at hpick
    · rename_i r replacer hvic
      cases hpick
      have h1 : b.replacer.Victim.1 = some replacement := by rw [hvic]
      have h2 : b.replacer.Victim.2 = replacer := by rw [hvic]
      refine ⟨?_, h.replacer_lt _ (LRUReplacer.Victim_fst_mem h1), rfl, rfl, rfl⟩
      exact h.transfer rfl (fun _ _ hp => Or.inl hp) (fun _ hp => Or.inl hp)
        (fun p hp => Or.inl (LRUReplacer.mem_Victim_lst (by rw [h2]; exact hp)))
    · exact Option.noConfusion hpick

theorem new_valid (pool_size PAGE_SIZE : Nat) (disk_manager : DiskManager) :
    FramesValid (new pool_size PAGE_SIZE disk_manager) := by
  refine ⟨?_, ?_, ?_⟩
  · intro id p hp
    simp [new, mapFind] at hp
  · intro p hp
    simpa [new] using hp
  · intro p hp
    simp [new, LRUReplacer.new] at hp

theorem FetchPage_valid {b : BufferPoolManager} (h : FramesValid b) (page_id : page_id_t) :
    FramesValid (b.FetchPage page_id).2 := by
  unfold FetchPage
  split
  · exact setFrame_valid h _ _
  · split
    · exact h
    · rename_i replacement b₁ hpick
      obtain ⟨h₁, hlt, hpages, _, _⟩ := pickReplacement_valid h hpick
      have hlt₁ : replacement < b₁.pages.length := by rw [hpages]; exact hlt
      simp only
      apply setFrame_valid
      apply FramesValid.transfer (b := b₁) h₁
      · simp only [setFrame, List.length_set]
        split <;> simp only [List.length_set]
      · intro id p hp
        simp only [setFrame] at hp
        split at hp
        all_goals
          simp only at hp
          rcases mapFind_mapAssign_some hp with h1 | h1
          · right; rw [h1]; exact hlt₁
          · left; exact mapFind_mapErase_some h1
      · intro p hp
        simp only [setFrame] at hp
        split at hp <;> exact Or.inl hp
      · intro p hp
        simp only [setFrame] at hp
        split at hp <;> exact Or.inl hp

theorem NewPage_valid {b : BufferPoolManager} (h : FramesValid b) :
    FramesValid b.NewPage.2 := by
  unfold NewPage
  split
  · exact h
  · rename_i new_page b₁ hpick
    obtain ⟨h₁, hlt, hpages, _, _⟩ := pickReplacement_valid h hpick
    have hlt₁ : new_page < b₁.pages.length := by rw [hpages]; exact hlt
    simp only
    apply FramesValid.transfer (b := b₁) h₁
    · simp only [setFrame, List.length_set]
      split <;> simp only [List.length_set]
    · intro id p hp
      simp only [setFrame] at hp
      split at hp
      all_goals
        simp only at hp
        rcases mapFind_mapAssign_some hp with h1 | h1
        · right; rw [h1]; exact hlt₁
        · left; exact h1
    · intro p hp
      simp only [setFrame] at hp
      split at hp <;> exact Or.inl hp
    · intro p hp
      simp only [setFrame] at hp
      split at hp <;> exact Or.inl hp

theorem unpinTail_valid {b : BufferPoolManager} (h : FramesValid b) {page : Nat}
    (hp : page < b.pages.length) (is_dirty : Bool) :
    FramesValid (b.unpinTail page is_dirty).2 := by
  unfold unpinTail
  simp only
  have h₁ : FramesValid
      (if (b.frame page).pin_count = 0 then { b with replacer := b.replacer.Insert page }
        else b) := by
    split
    · exact h.transfer rfl (fun _ _ hq => Or.inl hq) (fun _ hq => Or.inl hq)
        (fun q hq => by
          rcases LRUReplacer.mem_Insert_lst hq with h1 | h1
          · right; rw [h1]; exact hp
          · left; exact h1)
    · exact h
  split
  · exact setFrame_valid h₁ _ _
  · exact h₁

theorem UnpinPage_valid {b : BufferPoolManager} (h : FramesValid b) (page_id : page_id_t)
    (is_dirty : Bool) : FramesValid (b.UnpinPage page_id is_dirty).2 := by
  unfold UnpinPage
  split
  · exact h
  · rename_i page hfind
    have hp := h.table_lt _ _ hfind
    split
    · exact unpinTail_valid (setFrame_valid h _ _) (by rw [length_setFrame]; exact hp) _
    · split
      · exact h
      · exact unpinTail_valid h hp _

theorem FlushPage_valid {b : BufferPoolManager} (h : FramesValid b) (page_id : page_id_t) :
    FramesValid (b.FlushPage page_id).2 := by
  unfold FlushPage
  split
  · exact h
  · split
    · exact h
    · exact h.transfer rfl (fun _ _ hq => Or.inl hq) (fun _ hq => Or.inl hq)
        (fun _ hq => Or.inl hq)

theorem DeletePage_valid {b : BufferPoolManager} (h : FramesValid b) (page_id : page_id_t) :
    FramesValid (b.DeletePage page_id).2 := by
  unfold DeletePage
  split
  · rename_i old_page hfind
    have hp := h.table_lt _ _ hfind
    split
    · exact h
    · apply h.transfer
      · simp only [setFrame, List.length_set]
      · intro id p hq
        exact Or.inl (mapFind_mapErase_some hq)
      · intro p hq
        simp only [setFrame, List.mem_append, List.mem_singleton] at hq
        rcases hq with h1 | h1
        · exact Or.inl h1
        · right; rw [h1]; exact hp
      · intro p hq
        exact Or.inl hq
  · exact h

theorem Reachable.valid {pool_size PAGE_SIZE : Nat} {disk_manager : DiskManager}
    {b : BufferPoolManager} (h : Reachable pool_size PAGE_SIZE disk_manager b) :
    FramesValid b := by
  induction h with
  | init => exact new_valid _ _ _
  | fetch page_id _ ih => exact FetchPage_valid ih page_id
  | newPage _ ih => exact NewPage_valid ih
  | unpin page_id is_dirty _ ih => exact UnpinPage_valid ih page_id is_dirty
  | flush page_id _ ih => exact FlushPage_valid ih page_id
  | delete page_id _ ih => exact DeletePage_valid ih page_id
  | write p data _ ih => exact setFrame_valid ih _ _

theorem unpinTail_spec (b : BufferPoolManager) {page : Nat} (hlt : page < b.pages.length)
    (is_dirty : Bool) :
    (b.unpinTail page is_dirty).1 = true ∧
      (b.unpinTail page is_dirty).2.frame page =
        { b.frame page with is_dirty := ((b.frame page).is_dirty || is_dirty) } ∧
      (b.unpinTail page is_dirty).2.replacer =
        (if (b.frame page).pin_count = 0 then b.replacer.Insert page else b.replacer) ∧
      (∀ q, q ≠ page → (b.unpinTail page is_dirty).2.frame q = b.frame q) ∧
      (b.unpinTail page is_dirty).2.page_table = b.page_table ∧
      (b.unpinTail page is_dirty).2.free_list = b.free_list ∧
      (b.unpinTail page is_dirty).2.disk_manager = b.disk_manager := by
  unfold unpinTail
  simp only
  generalize hb₁ : (if (b.frame page).pin_count = 0 then
    { b with replacer := b.replacer.Insert page } else b) = b₁
  have hpages : b₁.pages = b.pages := by subst hb₁; split <;> rfl
  have htab : b₁.page_table = b.page_table := by subst hb₁; split <;> rfl
  have hfree : b₁.free_list = b.free_list := by subst hb₁; split <;> rfl
  have hdisk : b₁.disk_manager = b.disk_manager := by subst hb₁; split <;> rfl
  have hrep : b₁.replacer =
      (if (b.frame page).pin_count = 0 then b.replacer.Insert page else b.replacer) := by
    subst hb₁; split <;> rfl
  have hfr : ∀ q, b₁.frame q = b.frame q := fun q => by unfold frame; rw [hpages]
  have hlt₁ : page < b₁.pages.length := by rw [hpages]; exact hlt
  cases is_dirty with
  | true =>
    simp only [if_true, Bool.or_true]
    refine ⟨trivial, ?_, hrep, ?_, htab, hfree, hdisk⟩
    · rw [frame_setFrame_self b₁ hlt₁, hfr]
    · intro q hq
      rw [frame_setFrame_ne b₁ hq, hfr]
  | false =>
    simp only [Bool.or_false]
    refine ⟨trivial, ?_, hrep, ?_, htab, hfree, hdisk⟩
    · show b₁.frame page = _
      rw [hfr]
    · intro q _
      exact hfr q

/-! ## Claims on the buffer pool manager -/

/-- C6 (code defect). `FetchPage` re-pins a resident page without taking its
frame out of the replacer, and neither `FetchPage` nor `NewPage` looks at the
pin count of the victim.  Pool of one frame: after `NewPage` (page 0),
`UnpinPage(0, false)` and `FetchPage(0)` the only frame has pin count 1, yet
`NewPage` and `FetchPage(7)` both return that frame instead of `nullptr`, and
`NewPage` leaves it with pin count 2. -/
theorem pinned_frame_is_reused :
    Reachable 1 2 ⟨[], 0, []⟩
        ((((new 1 2 ⟨[], 0, []⟩).NewPage.2.UnpinPage 0 false).2.FetchPage 0).2) ∧
      ((((new 1 2 ⟨[], 0, []⟩).NewPage.2.UnpinPage 0 false).2.FetchPage 0).2).pages.length = 1 ∧
      (((((new 1 2 ⟨[], 0, []⟩).NewPage.2.UnpinPage 0 false).2.FetchPage 0).2).frame 0).pin_count
        = 1 ∧
      ((((new 1 2 ⟨[], 0, []⟩).NewPage.2.UnpinPage 0 false).2.FetchPage 0).2).NewPage.1 =
        some (0, 1) ∧
      (((((new 1 2 ⟨[], 0, []⟩).NewPage.2.UnpinPage 0 false).2.FetchPage 0).2).NewPage.2.frame
        0).pin_count = 2 ∧
      (((((new 1 2 ⟨[], 0, []⟩).NewPage.2.UnpinPage 0 false).2.FetchPage 0).2).FetchPage 7).1 =
        some 0 :=
  ⟨Reachable.fetch 0 (Reachable.unpin 0 false (Reachable.newPage Reachable.init)),
    by decide, by decide, by decide, by decide, by decide⟩

/-- C7 (code defect). `FetchPage` never stores `page_id` in the frame and never
clears the dirty flag.  Pool of one frame: `FetchPage(5)` on the fresh pool
returns frame 0, maps page 5 to it, and leaves its `page_id` field at
`INVALID_PAGE_ID`; after `NewPage` (page 0) and `UnpinPage(0, true)`,
`FetchPage(9)` returns frame 0 with `page_id` still 0 and the dirty flag still
set. -/
theorem FetchPage_keeps_stale_metadata :
    ((new 1 2 ⟨[], 0, []⟩).FetchPage 5).1 = some 0 ∧
      mapFind 5 ((new 1 2 ⟨[], 0, []⟩).FetchPage 5).2.page_table = some 0 ∧
      (((new 1 2 ⟨[], 0, []⟩).FetchPage 5).2.frame 0).page_id = INVALID_PAGE_ID ∧
      ((((new 1 2 ⟨[], 0, []⟩).NewPage.2.UnpinPage 0 true).2.FetchPage 9).1 = some 0) ∧
      ((((new 1 2 ⟨[], 0, []⟩).NewPage.2.UnpinPage 0 true).2.FetchPage 9).2.frame 0).page_id
        = 0 ∧
      ((((new 1 2 ⟨[], 0, []⟩).NewPage.2.UnpinPage 0 true).2.FetchPage 9).2.frame 0).is_dirty
        = true :=
  ⟨by decide, by decide, by decide, by decide, by decide, by decide⟩

/-- C8 (code defect, the one of C7). The write-back of a victim uses the frame's
`page_id` field, which `FetchPage` never sets.  Pool of one frame:
`FetchPage(5)`, `UnpinPage(5, true)`, `FetchPage(6)` makes the disk manager see
`ReadPage(5)`, `WritePage(INVALID_PAGE_ID, …)`, `ReadPage(6)`: the dirty page 5
is written back under the identifier -1. -/
theorem eviction_writes_stale_page_id :
    ((((new 1 2 ⟨[], 0, []⟩).FetchPage 5).2.UnpinPage 5 true).2.FetchPage 6).2.disk_manager.calls
      = [DiskCall.ReadPage 5, DiskCall.WritePage (-1) [0, 0], DiskCall.ReadPage 6] := by
  decide

/-- C9 (code defect). `UnpinPage` returns false only for a negative pin count;
for a pin count of zero it goes on.  Pool of one frame: after `NewPage`
(page 0) and `UnpinPage(0, false)` the pin count is 0, and `UnpinPage(0, true)`
returns true and sets the dirty flag.  Pool of two frames: with pages 0 and 1
unpinned in this order the replacer holds `[1, 0]` (most recent first), and a
further `UnpinPage(0, false)` returns true and reorders it to `[0, 1]`. -/
theorem UnpinPage_accepts_zero_pin_count :
    ((((new 1 2 ⟨[], 0, []⟩).NewPage.2.UnpinPage 0 false).2).frame 0).pin_count = 0 ∧
      ((((new 1 2 ⟨[], 0, []⟩).NewPage.2.UnpinPage 0 false).2).frame 0).is_dirty = false ∧
      ((((new 1 2 ⟨[], 0, []⟩).NewPage.2.UnpinPage 0 false).2).UnpinPage 0 true).1 = true ∧
      (((((new 1 2 ⟨[], 0, []⟩).NewPage.2.UnpinPage 0 false).2).UnpinPage 0 true).2.frame
        0).is_dirty = true ∧
      ((((new 2 2 ⟨[], 0, []⟩).NewPage.2.NewPage.2.UnpinPage 0 false).2.UnpinPage 1
        false).2).replacer.lst = [1, 0] ∧
      (((((new 2 2 ⟨[], 0, []⟩).NewPage.2.NewPage.2.UnpinPage 0 false).2.UnpinPage 1
        false).2).UnpinPage 0 false).1 = true ∧
      (((((new 2 2 ⟨[], 0, []⟩).NewPage.2.NewPage.2.UnpinPage 0 false).2.UnpinPage 1
        false).2).UnpinPage 0 false).2.replacer.lst = [0, 1] :=
  ⟨by decide, by decide, by decide, by decide, by decide, by decide, by decide⟩

/-- C10. UnpinPage on a pinned resident page of a reachable pool: it returns
true, lowers the pin count by one, sets the dirty flag to the old flag or
`is_dirty`, inserts the frame at the most recent end of the replacer when the
new pin count is 0 and leaves the replacer alone otherwise; the page table,
the free list, the disk manager, the frame's identifier and bytes and every
other frame stay as they were.  For a page that is not in the page table it
returns false and changes nothing. -/
theorem UnpinPage_pinned {pool_size PAGE_SIZE : Nat} {disk_manager : DiskManager}
    {b : BufferPoolManager} (hreach : Reachable pool_size PAGE_SIZE disk_manager b)
    (page_id : page_id_t) (is_dirty : Bool) :
    (∀ page, mapFind page_id b.page_table = some page → 0 < (b.frame page).pin_count →
      (b.UnpinPage page_id is_dirty).1 = true ∧
      ((b.UnpinPage page_id is_dirty).2.frame page).pin_count = (b.frame page).pin_count - 1 ∧
      ((b.UnpinPage page_id is_dirty).2.frame page).is_dirty =
        ((b.frame page).is_dirty || is_dirty) ∧
      ((b.UnpinPage page_id is_dirty).2.frame page).page_id = (b.frame page).page_id ∧
      ((b.UnpinPage page_id is_dirty).2.frame page).data = (b.frame page).data ∧
      (b.UnpinPage page_id is_dirty).2.replacer =
        (if (b.frame page).pin_count - 1 = 0 then b.replacer.Insert page else b.replacer) ∧
      ((b.frame page).pin_count - 1 = 0 →
        (b.UnpinPage page_id is_dirty).2.replacer.lst.head? = some page) ∧
      (∀ q, q ≠ page → (b.UnpinPage page_id is_dirty).2.frame q = b.frame q) ∧
      (b.UnpinPage page_id is_dirty).2.page_table = b.page_table ∧
      (b.UnpinPage page_id is_dirty).2.free_list = b.free_list ∧
      (b.UnpinPage page_id is_dirty).2.disk_manager = b.disk_manager) ∧
    (mapFind page_id b.page_table = none → b.UnpinPage page_id is_dirty = (false, b)) := by
  have hvalid := hreach.valid
  constructor
  · intro page hfind hpin
    have hlt : page < b.pages.length := hvalid.table_lt _ _ hfind
    have hU : b.UnpinPage page_id is_dirty =
        (b.setFrame page
          { b.frame page with pin_count := (b.frame page).pin_count - 1 }).unpinTail
          page is_dirty := by
      unfold UnpinPage
      rw [hfind]
      simp only
      rw [if_pos hpin]
    have hf₁ := frame_setFrame_self b hlt
      { b.frame page with pin_count := (b.frame page).pin_count - 1 }
    have hlt₁ : page < (b.setFrame page
        { b.frame page with pin_count := (b.frame page).pin_count - 1 }).pages.length := by
      rw [length_setFrame]; exact hlt
    obtain ⟨h1, h2, h3, h4, h5, h6, h7⟩ := unpinTail_spec _ hlt₁ is_dirty
    rw [hf₁] at h2 h3
    have h3' : (b.UnpinPage page_id is_dirty).2.replacer =
        (if (b.frame page).pin_count - 1 = 0 then b.replacer.Insert page
          else b.replacer) := by
      rw [hU]; exact h3
    have hhead : (b.frame page).pin_count - 1 = 0 →
        (b.UnpinPage page_id is_dirty).2.replacer.lst.head? = some page := by
      intro hz
      rw [h3', if_pos hz]
      rfl
    rw [hU] at h3' hhead ⊢
    refine ⟨h1, ?_, ?_, ?_, ?_, h3', hhead, ?_, h5, h6, h7⟩
    · rw [h2]
    · rw [h2]
    · rw [h2]
    · rw [h2]
    · intro q hq
      rw [h4 q hq]
      exact frame_setFrame_ne b hq _
  · intro hfind
    unfold UnpinPage
    rw [hfind]

/-- Witness for C10: pool of two frames, page 0 created, `UnpinPage(0, true)`. -/
theorem UnpinPage_pinned_witness :
    mapFind 0 (new 2 2 ⟨[], 0, []⟩).NewPage.2.page_table = some 0 ∧
      0 < ((new 2 2 ⟨[], 0, []⟩).NewPage.2.frame 0).pin_count ∧
      ((new 2 2 ⟨[], 0, []⟩).NewPage.2.UnpinPage 0 true).1 = true ∧
      (((new 2 2 ⟨[], 0, []⟩).NewPage.2.UnpinPage 0 true).2.frame 0).pin_count = 1 - 1 ∧
      (((new 2 2 ⟨[], 0, []⟩).NewPage.2.UnpinPage 0 true).2.frame 0).is_dirty = true ∧
      ((new 2 2 ⟨[], 0, []⟩).NewPage.2.UnpinPage 0 true).2.replacer.lst.head? = some 0 := by
  have hreach : Reachable 2 2 ⟨[], 0, []⟩ (new 2 2 ⟨[], 0, []⟩).NewPage.2 :=
    Reachable.newPage Reachable.init
  have hfind : mapFind 0 (new 2 2 ⟨[], 0, []⟩).NewPage.2.page_table = some 0 := by decide
  have hpin : 0 < ((new 2 2 ⟨[], 0, []⟩).NewPage.2.frame 0).pin_count := by decide
  have h := (UnpinPage_pinned hreach 0 true).1 0 hfind hpin
  exact ⟨hfind, hpin, h.1, h.2.1, h.2.2.1, h.2.2.2.2.2.2.1 (by decide)⟩

/-! ## Further claims on the buffer pool manager -/

/-- C11 (code defect, the one of C6). `NewPage` increments the pin count of the
frame it takes and never looks at it, and `DeletePage` leaves the deleted
frame in the replacer.  Pool of one frame: after `NewPage` (page 0),
`UnpinPage(0, false)`, `DeletePage(0)` and `NewPage` (page 1, from the free
list, pin count 1) the replacer still holds the frame, and a further `NewPage`
returns it with page 2, clean, mapped by the page table, and with pin count 2. -/
theorem NewPage_pin_count_two :
    ((((new 1 2 ⟨[], 0, []⟩).NewPage.2.UnpinPage 0 false).2.DeletePage 0).2.NewPage.2.frame
        0).pin_count = 1 ∧
      (((new 1 2 ⟨[], 0, []⟩).NewPage.2.UnpinPage 0 false).2.DeletePage 0).2.NewPage.2.NewPage.1 =
        some (0, 2) ∧
      mapFind 2 (((new 1 2 ⟨[], 0, []⟩).NewPage.2.UnpinPage 0
        false).2.DeletePage 0).2.NewPage.2.NewPage.2.page_table = some 0 ∧
      ((((new 1 2 ⟨[], 0, []⟩).NewPage.2.UnpinPage 0 false).2.DeletePage
        0).2.NewPage.2.NewPage.2.frame 0).page_id = 2 ∧
      ((((new 1 2 ⟨[], 0, []⟩).NewPage.2.UnpinPage 0 false).2.DeletePage
        0).2.NewPage.2.NewPage.2.frame 0).is_dirty = false ∧
      ((((new 1 2 ⟨[], 0, []⟩).NewPage.2.UnpinPage 0 false).2.DeletePage
        0).2.NewPage.2.NewPage.2.frame 0).pin_count = 2 :=
  ⟨by decide, by decide, by decide, by decide, by decide, by decide⟩

/-- C12. DeletePage on a reachable pool: for a page that is not in the page
table, or whose frame has a pin count other than 0, it returns false and
leaves the whole state, the disk manager included, as it was; otherwise it
returns true, the page is no longer in the page table, the frame has
`page_id = INVALID_PAGE_ID` and a clear dirty flag, the frame is appended to
the free list, the disk manager has received exactly one call,
`DeallocatePage(page_id)`, and the other page-table entries, the other frames,
the frame's pin count and bytes and the replacer are unchanged. -/
theorem DeletePage_spec {pool_size PAGE_SIZE : Nat} {disk_manager : DiskManager}
    {b : BufferPoolManager} (hreach : Reachable pool_size PAGE_SIZE disk_manager b)
    (page_id : page_id_t) :
    (mapFind page_id b.page_table = none → b.DeletePage page_id = (false, b)) ∧
    (∀ page, mapFind page_id b.page_table = some page → (b.frame page).pin_count ≠ 0 →
      b.DeletePage page_id = (false, b)) ∧
    (∀ page, mapFind page_id b.page_table = some page → (b.frame page).pin_count = 0 →
      (b.DeletePage page_id).1 = true ∧
      mapFind page_id (b.DeletePage page_id).2.page_table = none ∧
      (∀ id, id ≠ page_id →
        mapFind id (b.DeletePage page_id).2.page_table = mapFind id b.page_table) ∧
      ((b.DeletePage page_id).2.frame page).page_id = INVALID_PAGE_ID ∧
      ((b.DeletePage page_id).2.frame page).is_dirty = false ∧
      ((b.DeletePage page_id).2.frame page).pin_count = (b.frame page).pin_count ∧
      ((b.DeletePage page_id).2.frame page).data = (b.frame page).data ∧
      (∀ q, q ≠ page → (b.DeletePage page_id).2.frame q = b.frame q) ∧
      (b.DeletePage page_id).2.free_list = b.free_list ++ [page] ∧
      (b.DeletePage page_id).2.replacer = b.replacer ∧
      (b.DeletePage page_id).2.disk_manager.calls =
        b.disk_manager.calls ++ [DiskCall.DeallocatePage page_id] ∧
      (b.DeletePage page_id).2.disk_manager.file = b.disk_manager.file ∧
      (b.DeletePage page_id).2.disk_manager.next_page_id = b.disk_manager.next_page_id) := by
  have hvalid := hreach.valid
  refine ⟨?_, ?_, ?_⟩
  · intro hfind
    unfold DeletePage
    rw [hfind]
  · intro page hfind hpin
    unfold DeletePage
    rw [hfind]
    simp only
    rw [if_pos hpin]
  · intro page hfind hpin
    have hlt : page < b.pages.length := hvalid.table_lt _ _ hfind
    have hD : b.DeletePage page_id =
        (true,
          { pool_size := b.pool_size
            pages := b.pages.set page
              { b.frame page with page_id := INVALID_PAGE_ID, is_dirty := false }
            page_table := mapErase page_id b.page_table
            replacer := b.replacer
            free_list := b.free_list ++ [page]
            disk_manager := b.disk_manager.DeallocatePage page_id }) := by
      unfold DeletePage
      rw [hfind]
      simp only
      rw [if_neg (fun h => h hpin)]
      rfl
    have hget : (b.pages.set page
        { b.frame page with page_id := INVALID_PAGE_ID, is_dirty := false }).getD page
          (Page.new 0) =
        { b.frame page with page_id := INVALID_PAGE_ID, is_dirty := false } := by
      rw [List.getD_eq_getElem?_getD, List.getElem?_set_self hlt]
      rfl
    rw [hD]
    refine ⟨rfl, mapFind_mapErase_self _ _, fun id hid => mapFind_mapErase_ne hid _,
      ?_, ?_, ?_, ?_, ?_, rfl, rfl, rfl, rfl, rfl⟩
    · show ((b.pages.set page _).getD page (Page.new 0)).page_id = _
      rw [hget]
    · show ((b.pages.set page _).getD page (Page.new 0)).is_dirty = _
      rw [hget]
    · show ((b.pages.set page _).getD page (Page.new 0)).pin_count = _
      rw [hget]
    · show ((b.pages.set page _).getD page (Page.new 0)).data = _
      rw [hget]
    · intro q hq
      show (b.pages.set page _).getD q (Page.new 0) = b.pages.getD q (Page.new 0)
      rw [List.getD_eq_getElem?_getD, List.getD_eq_getElem?_getD,
        List.getElem?_set_ne (fun h => hq h.symm)]

/-- Witness for C12: pool of two frames, page 0 created and unpinned, then
deleted. -/
theorem DeletePage_spec_witness :
    mapFind 0 ((new 2 2 ⟨[], 0, []⟩).NewPage.2.UnpinPage 0 false).2.page_table = some 0 ∧
      ((((new 2 2 ⟨[], 0, []⟩).NewPage.2.UnpinPage 0 false).2).frame 0).pin_count = 0 ∧
      ((((new 2 2 ⟨[], 0, []⟩).NewPage.2.UnpinPage 0 false).2).DeletePage 0).1 = true ∧
      ((((new 2 2 ⟨[], 0, []⟩).NewPage.2.UnpinPage 0 false).2).DeletePage 0).2.free_list =
        [1] ++ [0] ∧
      ((((new 2 2 ⟨[], 0, []⟩).NewPage.2.UnpinPage 0 false).2).DeletePage
        0).2.disk_manager.calls = [DiskCall.AllocatePage 0] ++ [DiskCall.DeallocatePage 0] := by
  have hreach : Reachable 2 2 ⟨[], 0, []⟩
      ((new 2 2 ⟨[], 0, []⟩).NewPage.2.UnpinPage 0 false).2 :=
    Reachable.unpin 0 false (Reachable.newPage Reachable.init)
  have hfind : mapFind 0 ((new 2 2 ⟨[], 0, []⟩).NewPage.2.UnpinPage 0 false).2.page_table =
      some 0 := by decide
  have hpin : ((((new 2 2 ⟨[], 0, []⟩).NewPage.2.UnpinPage 0 false).2).frame 0).pin_count =
      0 := by decide
  have h := (DeletePage_spec hreach 0).2.2 0 hfind hpin
  exact ⟨hfind, hpin, h.1, h.2.2.2.2.2.2.2.2.1, h.2.2.2.2.2.2.2.2.2.2.1⟩

/-- C13. FlushPage, on every pool state: it returns false exactly when
`page_id` is `INVALID_PAGE_ID` or is not in the page table, and then changes
nothing and calls nothing; otherwise it returns true and the disk manager has
received exactly one call, `WritePage(page_id, bytes of the mapped frame)`.  In
both cases the pool size, the frames with their metadata (the dirty flag
included), the page table, the free list and the replacer are unchanged. -/
theorem FlushPage_spec (b : BufferPoolManager) (page_id : page_id_t) :
    ((b.FlushPage page_id).1 = false ↔
      (page_id = INVALID_PAGE_ID ∨ mapFind page_id b.page_table = none)) ∧
    ((b.FlushPage page_id).1 = false → (b.FlushPage page_id).2 = b) ∧
    (∀ page, page_id ≠ INVALID_PAGE_ID → mapFind page_id b.page_table = some page →
      (b.FlushPage page_id).1 = true ∧
      (b.FlushPage page_id).2.disk_manager =
        b.disk_manager.WritePage page_id (b.frame page).data ∧
      (b.FlushPage page_id).2.disk_manager.calls =
        b.disk_manager.calls ++ [DiskCall.WritePage page_id (b.frame page).data]) ∧
    (b.FlushPage page_id).2.pool_size = b.pool_size ∧
    (b.FlushPage page_id).2.pages = b.pages ∧
    (b.FlushPage page_id).2.page_table = b.page_table ∧
    (b.FlushPage page_id).2.free_list = b.free_list ∧
    (b.FlushPage page_id).2.replacer = b.replacer := by
  unfold FlushPage
  by_cases hinv : page_id = INVALID_PAGE_ID
  · simp [hinv]
  · cases hfind : mapFind page_id b.page_table with
    | none => simp [hinv]
    | some page =>
      rw [if_neg hinv]
      refine ⟨?_, ?_, ?_, rfl, rfl, rfl, rfl, rfl⟩
      · simp [hinv]
      · intro h
        exact absurd h (by simp)
      · intro page' _ hp
        cases hp
        exact ⟨rfl, rfl, rfl⟩

/-- C15 (code defects, the one of C7 and a second one). `FetchPage` never stores
`page_id` in the frame, and `NewPage`, unlike `FetchPage`, never erases the
victim's old entry from the page table.  Pool of one frame: after
`FetchPage(5)` the page table maps 5 to frame 0, whose `page_id` is
`INVALID_PAGE_ID`; after `NewPage` (page 0), `UnpinPage(0, false)` and `NewPage`
(page 1) the page table maps both 0 and 1 to frame 0, whose `page_id` is 1. -/
theorem page_table_entry_disagrees_with_frame :
    mapFind 5 ((new 1 2 ⟨[], 0, []⟩).FetchPage 5).2.page_table = some 0 ∧
      (((new 1 2 ⟨[], 0, []⟩).FetchPage 5).2.frame 0).page_id = INVALID_PAGE_ID ∧
      Reachable 1 2 ⟨[], 0, []⟩ ((new 1 2 ⟨[], 0, []⟩).NewPage.2.UnpinPage 0 false).2.NewPage.2 ∧
      mapFind 0 ((new 1 2 ⟨[], 0, []⟩).NewPage.2.UnpinPage 0 false).2.NewPage.2.page_table =
        some 0 ∧
      mapFind 1 ((new 1 2 ⟨[], 0, []⟩).NewPage.2.UnpinPage 0 false).2.NewPage.2.page_table =
        some 0 ∧
      (((new 1 2 ⟨[], 0, []⟩).NewPage.2.UnpinPage 0 false).2.NewPage.2.frame 0).page_id = 1 :=
  ⟨by decide, by decide,
    Reachable.newPage (Reachable.unpin 0 false (Reachable.newPage Reachable.init)),
    by decide, by decide, by decide⟩

/-- C16 (code defect, the one of C6). The pool never calls `Erase` on its
replacer.  Pool of one frame: after `NewPage` (page 0), `UnpinPage(0, false)`
and a `FetchPage(0)` that hits, frame 0 is in the replacer with pin count 1;
after `NewPage` (page 0), `UnpinPage(0, false)` and `DeletePage(0)`, frame 0 is
in the replacer, on the free list, and the page table is empty. -/
theorem replacer_keeps_pinned_and_deleted_frames :
    (((new 1 2 ⟨[], 0, []⟩).NewPage.2.UnpinPage 0 false).2.FetchPage 0).1 = some 0 ∧
      (((new 1 2 ⟨[], 0, []⟩).NewPage.2.UnpinPage 0 false).2.FetchPage 0).2.replacer.lst =
        [0] ∧
      ((((new 1 2 ⟨[], 0, []⟩).NewPage.2.UnpinPage 0 false).2.FetchPage 0).2.frame
        0).pin_count = 1 ∧
      (((new 1 2 ⟨[], 0, []⟩).NewPage.2.UnpinPage 0 false).2.DeletePage 0).1 = true ∧
      (((new 1 2 ⟨[], 0, []⟩).NewPage.2.UnpinPage 0 false).2.DeletePage 0).2.replacer.lst =
        [0] ∧
      (((new 1 2 ⟨[], 0, []⟩).NewPage.2.UnpinPage 0 false).2.DeletePage 0).2.page_table =
        [] ∧
      (((new 1 2 ⟨[], 0, []⟩).NewPage.2.UnpinPage 0 false).2.DeletePage 0).2.free_list =
        [0] :=
  ⟨by decide, by decide, by decide, by decide, by decide, by decide, by decide⟩

/-- C17 (code defects, the ones of C15). Pool of one frame: after `NewPage`
(page 0), `UnpinPage(0, false)`, `NewPage` (page 1), `UnpinPage(1, false)` and
`DeletePage(1)` frame 0 is on the free list and is still the value of the
page-table entry of page 0.  Pool of two frames: after `NewPage` (page 0),
`NewPage` (page 1), `UnpinPage(0, false)`, `FetchPage(7)`, `UnpinPage(1, false)`,
`FetchPage(0)`, `UnpinPage(7, false)` and `FetchPage(9)` the free list is empty
and the page table is `7 ↦ 0, 9 ↦ 0`: frame 1, pinned by `FetchPage(0)`, is in
neither structure, because `FetchPage(9)` erased the entry of the stale
`page_id` 0 of frame 0. -/
theorem free_list_and_page_table_do_not_partition :
    (((((new 1 2 ⟨[], 0, []⟩).NewPage.2.UnpinPage 0 false).2.NewPage.2).UnpinPage 1
        false).2.DeletePage 1).2.free_list = [0] ∧
      mapFind 0 (((((new 1 2 ⟨[], 0, []⟩).NewPage.2.UnpinPage 0 false).2.NewPage.2).UnpinPage 1
        false).2.DeletePage 1).2.page_table = some 0 ∧
      (((((((new 2 2 ⟨[], 0, []⟩).NewPage.2.NewPage.2.UnpinPage 0 false).2.FetchPage 7).2.UnpinPage
        1 false).2.FetchPage 0).2.UnpinPage 7 false).2.FetchPage 9).2.free_list = [] ∧
      (((((((new 2 2 ⟨[], 0, []⟩).NewPage.2.NewPage.2.UnpinPage 0 false).2.FetchPage 7).2.UnpinPage
        1 false).2.FetchPage 0).2.UnpinPage 7 false).2.FetchPage 9).2.page_table =
        [(7, 0), (9, 0)] ∧
      ((((((((new 2 2 ⟨[], 0, []⟩).NewPage.2.NewPage.2.UnpinPage 0 false).2.FetchPage
        7).2.UnpinPage 1 false).2.FetchPage 0).2.UnpinPage 7 false).2.FetchPage 9).2.frame
        1).pin_count = 1 ∧
      (((((((new 2 2 ⟨[], 0, []⟩).NewPage.2.NewPage.2.UnpinPage 0 false).2.FetchPage 7).2.UnpinPage
        1 false).2.FetchPage 0).2.UnpinPage 7 false).2.FetchPage 9).2.pages.length = 2 :=
  ⟨by decide, by decide, by decide, by decide, by decide, by decide⟩

end BufferPoolManager

/-! ## Further lemmas on the associative containers -/

section MapLemmas2

variable {K V : Type} [DecidableEq K]

theorem mem_mapErase {key : K} {e : K × V} {m : List (K × V)} (h : e ∈ mapErase key m) :
    e ∈ m := by
  induction m with
  | nil => simp [mapErase] at h
  | cons x rest ih =>
    obtain ⟨k, v⟩ := x
    unfold mapErase at h
    split at h
    · exact List.mem_cons_of_mem _ (ih h)
    · rcases List.mem_cons.mp h with h1 | h1
      · rw [h1]; exact List.mem_cons_self _ _
      · exact List.mem_cons_of_mem _ (ih h1)

theorem length_mapErase_le (key : K) (m : List (K × V)) :
    (mapErase key m).length ≤ m.length := by
  induction m with
  | nil => simp [mapErase]
  | cons x rest ih =>
    obtain ⟨k, v⟩ := x
    unfold mapErase
    split
    · simp only [List.length_cons]; omega
    · simp only [List.length_cons]; omega

theorem mem_mapAssign {key : K} {value : V} {e : K × V} {m : List (K × V)}
    (h : e ∈ mapAssign key value m) : e ∈ m ∨ e = (key, value) := by
  induction m with
  | nil =>
    simp only [mapAssign, List.mem_singleton] at h
    exact Or.inr h
  | cons x rest ih =>
    obtain ⟨k, v⟩ := x
    unfold mapAssign at h
    split at h
    · rename_i hk
      rcases List.mem_cons.mp h with h1 | h1
      · right; rw [h1, hk]
      · left; exact List.mem_cons_of_mem _ h1
    · rcases List.mem_cons.mp h with h1 | h1
      · left; rw [h1]; exact List.mem_cons_self _ _
      · rcases ih h1 with h2 | h2
        · left; exact List.mem_cons_of_mem _ h2
        · right; exact h2

theorem length_mapAssign_le (key : K) (value : V) (m : List (K × V)) :
    (mapAssign key value m).length ≤ m.length + 1 := by
  induction m with
  | nil => simp [mapAssign]
  | cons x rest ih =>
    obtain ⟨k, v⟩ := x
    unfold mapAssign
    split
    · simp only [List.length_cons]; omega
    · simp only [List.length_cons]; omega

theorem mem_mapInsert {item e : K × V} {m : List (K × V)} (h : e ∈ mapInsert item m) :
    e ∈ m ∨ e = item := by
  unfold mapInsert at h
  split at h
  · exact Or.inl h
  · rcases List.mem_append.mp h with h1 | h1
    · exact Or.inl h1
    · exact Or.inr (List.mem_singleton.mp h1)

theorem length_mapInsert_le (item : K × V) (m : List (K × V)) :
    (mapInsert item m).length ≤ m.length + 1 := by
  unfold mapInsert
  split
  · omega
  · simp

theorem mem_of_mapFind {key : K} {v : V} {m : List (K × V)} (h : mapFind key m = some v) :
    (key, v) ∈ m := by
  induction m with
  | nil => simp [mapFind] at h
  | cons x rest ih =>
    obtain ⟨k, w⟩ := x
    unfold mapFind at h
    split at h
    · rename_i hk
      cases h
      rw [hk]
      exact List.mem_cons_self _ _
    · exact List.mem_cons_of_mem _ (ih h)

theorem mapFind_isSome_of_mem {e : K × V} {m : List (K × V)} (h : e ∈ m) :
    ∃ v, mapFind e.1 m = some v := by
  induction m with
  | nil => simp at h
  | cons x rest ih =>
    obtain ⟨k, w⟩ := x
    by_cases hk : k = e.1
    · exact ⟨w, by simp [mapFind, hk]⟩
    · rcases List.mem_cons.mp h with h1 | h1
      · exact absurd (by rw [h1]) hk
      · obtain ⟨v, hv⟩ := ih h1
        exact ⟨v, by simp [mapFind, hk, hv]⟩

end MapLemmas2

/-! ## Arithmetic of the low bits -/

theorem mod_two_pow_succ_eq_iff (a b d : Nat) :
    a % 2 ^ (d + 1) = b % 2 ^ (d + 1) ↔
      a % 2 ^ d = b % 2 ^ d ∧ a.testBit d = b.testBit d := by
  have ha := Nat.mod_lt a (Nat.two_pow_pos d)
  have hb := Nat.mod_lt b (Nat.two_pow_pos d)
  rw [Nat.mod_pow_succ, Nat.mod_pow_succ, Nat.testBit_to_div_mod, Nat.testBit_to_div_mod]
  rcases Nat.mod_two_eq_zero_or_one (a / 2 ^ d) with h1 | h1 <;>
    rcases Nat.mod_two_eq_zero_or_one (b / 2 ^ d) with h2 | h2
  · simp only [h1, h2, Nat.mul_zero, Nat.add_zero, and_true]
  · simp only [h1, h2, Nat.mul_zero, Nat.mul_one, Nat.add_zero]
    constructor
    · intro h; omega
    · intro h; exact absurd h.2 (by decide)
  · simp only [h1, h2, Nat.mul_zero, Nat.mul_one, Nat.add_zero]
    constructor
    · intro h; omega
    · intro h; exact absurd h.2 (by decide)
  · simp only [h1, h2, Nat.mul_one, and_true]
    constructor
    · intro h; omega
    · intro h; omega

theorem mod_mod_two_pow (a : Nat) {d g : Nat} (h : d ≤ g) :
    a % 2 ^ g % 2 ^ d = a % 2 ^ d :=
  Nat.mod_mod_of_dvd a (Nat.pow_dvd_pow 2 h)

theorem testBit_eq_of_mod_two_pow_eq {a b d i : Nat} (h : a % 2 ^ d = b % 2 ^ d)
    (hi : i < d) : a.testBit i = b.testBit i := by
  have h1 := Nat.testBit_mod_two_pow a d i
  have h2 := Nat.testBit_mod_two_pow b d i
  rw [h] at h1
  simp only [hi, decide_True, Bool.true_and] at h1 h2
  rw [← h1, h2]

namespace ExtendibleHash

variable {K V : Type} [DecidableEq K]

/-! ## The shape invariant of the extendible hash table -/

theorem redistribute_aux (HashKey : K → Nat) (mask : Nat) (c : List (K × V)) :
    ∀ acc : List (K × V) × List (K × V),
      (∀ e ∈ (c.foldl
          (fun acc item =>
            if HashKey item.1 &&& mask ≠ 0 then (acc.1, mapInsert item acc.2)
            else (mapInsert item acc.1, acc.2)) acc).1,
        e ∈ acc.1 ∨ (e ∈ c ∧ ¬ HashKey e.1 &&& mask ≠ 0)) ∧
      (∀ e ∈ (c.foldl
          (fun acc item =>
            if HashKey item.1 &&& mask ≠ 0 then (acc.1, mapInsert item acc.2)
            else (mapInsert item acc.1, acc.2)) acc).2,
        e ∈ acc.2 ∨ (e ∈ c ∧ HashKey e.1 &&& mask ≠ 0)) ∧
      (c.foldl
          (fun acc item =>
            if HashKey item.1 &&& mask ≠ 0 then (acc.1, mapInsert item acc.2)
            else (mapInsert item acc.1, acc.2)) acc).1.length +
        (c.foldl
          (fun acc item =>
            if HashKey item.1 &&& mask ≠ 0 then (acc.1, mapInsert item acc.2)
            else (mapInsert item acc.1, acc.2)) acc).2.length ≤
        acc.1.length + acc.2.length + c.length := by
  induction c with
  | nil =>
    intro acc
    simp only [List.foldl_nil, List.length_nil]
    exact ⟨fun e h => Or.inl h, fun e h => Or.inl h, Nat.le_refl _⟩
  | cons item rest ih =>
    intro acc
    simp only [List.foldl_cons, List.length_cons]
    by_cases hbit : HashKey item.1 &&& mask ≠ 0
    · rw [if_pos hbit]
      obtain ⟨h1, h2, h3⟩ := ih (acc.1, mapInsert item acc.2)
      refine ⟨?_, ?_, ?_⟩
      · intro e he
        rcases h1 e he with h | ⟨h, hb⟩
        · exact Or.inl h
        · exact Or.inr ⟨List.mem_cons_of_mem _ h, hb⟩
      · intro e he
        rcases h2 e he with h | ⟨h, hb⟩
        · rcases mem_mapInsert h with h' | h'
          · exact Or.inl h'
          · right
            rw [h']
            exact ⟨List.mem_cons_self _ _, hbit⟩
        · exact Or.inr ⟨List.mem_cons_of_mem _ h, hb⟩
      · have := length_mapInsert_le item acc.2
        simp only at h3
        omega
    · rw [if_neg hbit]
      obtain ⟨h1, h2, h3⟩ := ih (mapInsert item acc.1, acc.2)
      refine ⟨?_, ?_, ?_⟩
      · intro e he
        rcases h1 e he with h | ⟨h, hb⟩
        · rcases mem_mapInsert h with h' | h'
          · exact Or.inl h'
          · right
            rw [h']
            exact ⟨List.mem_cons_self _ _, hbit⟩
        · exact Or.inr ⟨List.mem_cons_of_mem _ h, hb⟩
      · intro e he
        rcases h2 e he with h | ⟨h, hb⟩
        · exact Or.inl h
        · exact Or.inr ⟨List.mem_cons_of_mem _ h, hb⟩
      · have := length_mapInsert_le item acc.1
        simp only at h3
        omega

theorem mem_redistribute_fst {HashKey : K → Nat} {mask : Nat} {c : List (K × V)}
    {e : K × V} (h : e ∈ (redistribute HashKey mask c).1) :
    e ∈ c ∧ ¬ HashKey e.1 &&& mask ≠ 0 := by
  rcases (redistribute_aux HashKey mask c ([], [])).1 e h with h1 | h1
  · simp at h1
  · exact h1

theorem mem_redistribute_snd {HashKey : K → Nat} {mask : Nat} {c : List (K × V)}
    {e : K × V} (h : e ∈ (redistribute HashKey mask c).2) :
    e ∈ c ∧ HashKey e.1 &&& mask ≠ 0 := by
  rcases (redistribute_aux HashKey mask c ([], [])).2.1 e h with h1 | h1
  · simp at h1
  · exact h1

theorem length_redistribute (HashKey : K → Nat) (mask : Nat) (c : List (K × V)) :
    (redistribute HashKey mask c).1.length + (redistribute HashKey mask c).2.length ≤
      c.length := by
  have h := (redistribute_aux HashKey mask c ([], [])).2.2
  simpa [redistribute] using h

theorem length_splitBucket (HashKey : K → Nat) {t : ExtendibleHash K V} (hwf : WF t)
    (p : Nat) :
    (splitBucket HashKey t p).bucketDirectory.length = 2 ^ (growDirectory t p).globalDepth := by
  show (rewriteDirectory _ _ _ _ _ _).length = _
  rw [length_rewriteDirectory]
  exact growDirectory_length hwf p

theorem slot_splitBucket (HashKey : K → Nat) {t : ExtendibleHash K V} (hwf : WF t)
    (p : Nat) {i : Nat}
    (hi : i < (splitBucket HashKey t p).bucketDirectory.length) :
    (splitBucket HashKey t p).bucketDirectory.getD i 0 =
      if t.bucketDirectory.getD (i % 2 ^ t.globalDepth) 0 = p then
        (if i.testBit (t.deref p).localDepth = true then t.heap.length + 1 else t.heap.length)
      else t.bucketDirectory.getD (i % 2 ^ t.globalDepth) 0 := by
  rw [length_splitBucket HashKey hwf p] at hi
  have hidx : i < (growDirectory t p).bucketDirectory.length := by
    rw [growDirectory_length hwf p]; exact hi
  have hlook := growDirectory_lookup hwf p i
  rw [Nat.mod_eq_of_lt hi, List.getD_eq_getElem _ _ hidx] at hlook
  have hbit : ((0 + i) &&& (1 <<< (t.deref p).localDepth) ≠ 0) ↔
      i.testBit (t.deref p).localDepth = true := by
    rw [and_mask_ne_zero_iff, Nat.zero_add]
  show (rewriteDirectory p t.heap.length (t.heap.length + 1)
      (1 <<< (t.deref p).localDepth) 0 (growDirectory t p).bucketDirectory).getD i 0 = _
  rw [List.getD_eq_getElem?_getD, getElem?_rewriteDirectory,
    List.getElem?_eq_getElem hidx, hlook]
  simp only [Option.map_some', Option.getD_some]
  by_cases hq : t.bucketDirectory.getD (i % 2 ^ t.globalDepth) 0 = p
  · rw [if_pos hq, if_pos hq]
    by_cases hb : i.testBit (t.deref p).localDepth = true
    · rw [if_pos hb, if_pos (hbit.mpr hb)]
    · rw [if_neg hb, if_neg (fun h => hb (hbit.mp h))]
  · rw [if_neg hq, if_neg hq]

/-- The three kinds of slots of a table after one pass of the split loop: a
slot that did not hold the split bucket keeps its bucket; a slot that held it
receives `split_1` or `split_2` according to bit `localDepth` of its index. -/
theorem splitBucket_view (HashKey : K → Nat) {t : ExtendibleHash K V} (hwf : WF t)
    (p : Nat) {i : Nat}
    (hi : i < (splitBucket HashKey t p).bucketDirectory.length) :
    (t.bucketDirectory.getD (i % 2 ^ t.globalDepth) 0 ≠ p ∧
      (splitBucket HashKey t p).bucketDirectory.getD i 0 =
        t.bucketDirectory.getD (i % 2 ^ t.globalDepth) 0 ∧
      (splitBucket HashKey t p).deref ((splitBucket HashKey t p).bucketDirectory.getD i 0) =
        t.deref (t.bucketDirectory.getD (i % 2 ^ t.globalDepth) 0)) ∨
    (t.bucketDirectory.getD (i % 2 ^ t.globalDepth) 0 = p ∧
      i.testBit (t.deref p).localDepth = false ∧
      (splitBucket HashKey t p).bucketDirectory.getD i 0 = t.heap.length ∧
      (splitBucket HashKey t p).deref ((splitBucket HashKey t p).bucketDirectory.getD i 0) =
        ⟨(t.deref p).localDepth + 1,
          (redistribute HashKey (1 <<< (t.deref p).localDepth) (t.deref p).contents).1⟩) ∨
    (t.bucketDirectory.getD (i % 2 ^ t.globalDepth) 0 = p ∧
      i.testBit (t.deref p).localDepth = true ∧
      (splitBucket HashKey t p).bucketDirectory.getD i 0 = t.heap.length + 1 ∧
      (splitBucket HashKey t p).deref ((splitBucket HashKey t p).bucketDirectory.getD i 0) =
        ⟨(t.deref p).localDepth + 1,
          (redistribute HashKey (1 <<< (t.deref p).localDepth) (t.deref p).contents).2⟩) := by
  have hslot := slot_splitBucket HashKey hwf p hi
  by_cases hq : t.bucketDirectory.getD (i % 2 ^ t.globalDepth) 0 = p
  · rw [if_pos hq] at hslot
    by_cases hb : i.testBit (t.deref p).localDepth = true
    · rw [if_pos hb] at hslot
      right; right
      refine ⟨hq, hb, hslot, ?_⟩
      rw [hslot, deref_splitBucket_snd]
    · rw [if_neg hb] at hslot
      right; left
      refine ⟨hq, by simpa using hb, hslot, ?_⟩
      rw [hslot, deref_splitBucket_fst]
  · rw [if_neg hq] at hslot
    left
    refine ⟨hq, hslot, ?_⟩
    rw [hslot, deref_splitBucket_old HashKey t p (hwf.ptr_lt _ (hwf.getD_mem i))]

theorem splitBucket_same_of_agree (HashKey : K → Nat) {t : ExtendibleHash K V}
    (hs : Shape HashKey t) {p : Nat} (hp : p ∈ t.bucketDirectory) (i j : Nat)
    (hi : i < (splitBucket HashKey t p).bucketDirectory.length)
    (hj : j < (splitBucket HashKey t p).bucketDirectory.length)
    (hagree : i % 2 ^ (splitBucket HashKey t p).GetLocalDepth i =
      j % 2 ^ (splitBucket HashKey t p).GetLocalDepth i) :
    (splitBucket HashKey t p).bucketDirectory.getD i 0 =
      (splitBucket HashKey t p).bucketDirectory.getD j 0 := by
  have hwf := hs.wf
  have hd : (t.deref p).localDepth ≤ t.globalDepth := hwf.depth_le p hp
  unfold GetLocalDepth at hagree
  rcases splitBucket_view HashKey hwf p hi with ⟨hne, hslot, hderef⟩ | ⟨hq, hb, hslot, hderef⟩ |
      ⟨hq, hb, hslot, hderef⟩
  · rw [hderef] at hagree
    have he := hwf.depth_le _ (hwf.getD_mem i)
    have hold := hs.same_of_agree _ _ (hwf.index_lt i) (hwf.index_lt j) (by
      unfold GetLocalDepth
      rw [mod_mod_two_pow i he, mod_mod_two_pow j he]
      exact hagree)
    rcases splitBucket_view HashKey hwf p hj with ⟨_, hslotj, _⟩ | ⟨hqj, _⟩ | ⟨hqj, _⟩
    · rw [hslot, hslotj]; exact hold
    · exact absurd (hold.trans hqj) hne
    · exact absurd (hold.trans hqj) hne
  · rw [hderef] at hagree
    obtain ⟨hmod, hbits⟩ := (mod_two_pow_succ_eq_iff i j _).mp hagree
    have hold := hs.same_of_agree _ _ (hwf.index_lt i) (hwf.index_lt j) (by
      unfold GetLocalDepth
      rw [hq, mod_mod_two_pow i hd, mod_mod_two_pow j hd]
      exact hmod)
    rw [hq] at hold
    rcases splitBucket_view HashKey hwf p hj with ⟨hnej, _⟩ | ⟨_, _, hslotj, _⟩ | ⟨_, hbj, _⟩
    · exact absurd hold.symm hnej
    · rw [hslot, hslotj]
    · rw [hb, hbj] at hbits
      exact absurd hbits (by decide)
  · rw [hderef] at hagree
    obtain ⟨hmod, hbits⟩ := (mod_two_pow_succ_eq_iff i j _).mp hagree
    have hold := hs.same_of_agree _ _ (hwf.index_lt i) (hwf.index_lt j) (by
      unfold GetLocalDepth
      rw [hq, mod_mod_two_pow i hd, mod_mod_two_pow j hd]
      exact hmod)
    rw [hq] at hold
    rcases splitBucket_view HashKey hwf p hj with ⟨hnej, _⟩ | ⟨_, hbj, _⟩ | ⟨_, _, hslotj, _⟩
    · exact absurd hold.symm hnej
    · rw [hb, hbj] at hbits
      exact absurd hbits (by decide)
    · rw [hslot, hslotj]

theorem splitBucket_agree_of_same (HashKey : K → Nat) {t : ExtendibleHash K V}
    (hs : Shape HashKey t) {p : Nat} (hp : p ∈ t.bucketDirectory) (i j : Nat)
    (hi : i < (splitBucket HashKey t p).bucketDirectory.length)
    (hj : j < (splitBucket HashKey t p).bucketDirectory.length)
    (hsame : (splitBucket HashKey t p).bucketDirectory.getD i 0 =
      (splitBucket HashKey t p).bucketDirectory.getD j 0) :
    i % 2 ^ (splitBucket HashKey t p).GetLocalDepth i =
      j % 2 ^ (splitBucket HashKey t p).GetLocalDepth i := by
  have hwf := hs.wf
  have hd : (t.deref p).localDepth ≤ t.globalDepth := hwf.depth_le p hp
  unfold GetLocalDepth
  rcases splitBucket_view HashKey hwf p hi with ⟨hne, hslot, hderef⟩ | ⟨hq, hb, hslot, hderef⟩ |
      ⟨hq, hb, hslot, hderef⟩
  · rw [hderef]
    have he := hwf.depth_le _ (hwf.getD_mem i)
    have hlt := hwf.ptr_lt _ (hwf.getD_mem i)
    rcases splitBucket_view HashKey hwf p hj with ⟨_, hslotj, _⟩ | ⟨_, _, hslotj, _⟩ |
        ⟨_, _, hslotj, _⟩
    · rw [hslot, hslotj] at hsame
      have hold := hs.agree_of_same _ _ (hwf.index_lt i) (hwf.index_lt j) hsame
      unfold GetLocalDepth at hold
      rw [mod_mod_two_pow i he, mod_mod_two_pow j he] at hold
      exact hold
    · rw [hslot, hslotj] at hsame
      omega
    · rw [hslot, hslotj] at hsame
      omega
  · rw [hderef]
    rcases splitBucket_view HashKey hwf p hj with ⟨_, hslotj, _⟩ | ⟨hqj, hbj, _⟩ |
        ⟨_, _, hslotj, _⟩
    · have hlt := hwf.ptr_lt _ (hwf.getD_mem j)
      rw [hslot, hslotj] at hsame
      omega
    · have hold := hs.agree_of_same _ _ (hwf.index_lt i) (hwf.index_lt j) (hq.trans hqj.symm)
      unfold GetLocalDepth at hold
      rw [hq, mod_mod_two_pow i hd, mod_mod_two_pow j hd] at hold
      exact (mod_two_pow_succ_eq_iff i j _).mpr ⟨hold, hb.trans hbj.symm⟩
    · rw [hslot, hslotj] at hsame
      omega
  · rw [hderef]
    rcases splitBucket_view HashKey hwf p hj with ⟨_, hslotj, _⟩ | ⟨_, _, hslotj, _⟩ |
        ⟨hqj, hbj, _⟩
    · have hlt := hwf.ptr_lt _ (hwf.getD_mem j)
      rw [hslot, hslotj] at hsame
      omega
    · rw [hslot, hslotj] at hsame
      omega
    · have hold := hs.agree_of_same _ _ (hwf.index_lt i) (hwf.index_lt j) (hq.trans hqj.symm)
      unfold GetLocalDepth at hold
      rw [hq, mod_mod_two_pow i hd, mod_mod_two_pow j hd] at hold
      exact (mod_two_pow_succ_eq_iff i j _).mpr ⟨hold, hb.trans hbj.symm⟩

theorem splitBucket_home (HashKey : K → Nat) {t : ExtendibleHash K V}
    (hs : Shape HashKey t) {p : Nat} (hp : p ∈ t.bucketDirectory) (i : Nat)
    (hi : i < (splitBucket HashKey t p).bucketDirectory.length) (e : K × V)
    (he : e ∈ ((splitBucket HashKey t p).deref
      ((splitBucket HashKey t p).bucketDirectory.getD i 0)).contents) :
    HashKey e.1 % 2 ^ (splitBucket HashKey t p).GetLocalDepth i =
      i % 2 ^ (splitBucket HashKey t p).GetLocalDepth i := by
  have hwf := hs.wf
  have hd : (t.deref p).localDepth ≤ t.globalDepth := hwf.depth_le p hp
  unfold GetLocalDepth
  rcases splitBucket_view HashKey hwf p hi with ⟨hne, hslot, hderef⟩ | ⟨hq, hb, hslot, hderef⟩ |
      ⟨hq, hb, hslot, hderef⟩
  · rw [hderef] at he ⊢
    have hle := hwf.depth_le _ (hwf.getD_mem i)
    have hold := hs.home _ (hwf.index_lt i) e he
    unfold GetLocalDepth at hold
    rw [mod_mod_two_pow i hle] at hold
    exact hold
  · rw [hderef] at he ⊢
    obtain ⟨hmem, hbit⟩ := mem_redistribute_fst he
    have hold := hs.home _ (hwf.index_lt i) e (by rw [hq]; exact hmem)
    unfold GetLocalDepth at hold
    rw [hq, mod_mod_two_pow i hd] at hold
    rw [and_mask_ne_zero_iff] at hbit
    have hbe : (HashKey e.1).testBit (t.deref p).localDepth = false := by simpa using hbit
    exact (mod_two_pow_succ_eq_iff _ _ _).mpr ⟨hold, hbe.trans hb.symm⟩
  · rw [hderef] at he ⊢
    obtain ⟨hmem, hbit⟩ := mem_redistribute_snd he
    have hold := hs.home _ (hwf.index_lt i) e (by rw [hq]; exact hmem)
    unfold GetLocalDepth at hold
    rw [hq, mod_mod_two_pow i hd] at hold
    rw [and_mask_ne_zero_iff] at hbit
    exact (mod_two_pow_succ_eq_iff _ _ _).mpr ⟨hold, hbit.trans hb.symm⟩

theorem bucketSizeLimit_splitBucket (HashKey : K → Nat) (t : ExtendibleHash K V) (p : Nat) :
    (splitBucket HashKey t p).bucketSizeLimit = t.bucketSizeLimit := by
  show (growDirectory t p).bucketSizeLimit = _
  unfold growDirectory
  split <;> rfl

theorem heap_length_splitBucket (HashKey : K → Nat) (t : ExtendibleHash K V) (p : Nat) :
    (splitBucket HashKey t p).heap.length = t.heap.length + 2 := by
  show (t.heap ++ _).length = _
  simp

theorem splitBucket_bounded (HashKey : K → Nat) {t : ExtendibleHash K V}
    (hs : Shape HashKey t) {p : Nat} (hp : p ∈ t.bucketDirectory) (q : Nat)
    (hq : q ∈ (splitBucket HashKey t p).bucketDirectory) :
    ((splitBucket HashKey t p).deref q).contents.length ≤
      (splitBucket HashKey t p).bucketSizeLimit := by
  have hwf := hs.wf
  have hlen := length_redistribute HashKey (1 <<< (t.deref p).localDepth) (t.deref p).contents
  have hb := hs.bounded p hp
  rw [bucketSizeLimit_splitBucket]
  rcases mem_rewriteDirectory hq with h | h | ⟨h, _⟩
  · rw [h, deref_splitBucket_fst]
    show (redistribute _ _ _).1.length ≤ _
    omega
  · rw [h, deref_splitBucket_snd]
    show (redistribute _ _ _).2.length ≤ _
    omega
  · have hmem := (growDirectory_mem t p q).mp h
    rw [deref_splitBucket_old HashKey t p (hwf.ptr_lt q hmem)]
    exact hs.bounded q hmem

theorem splitBucket_globalDepth_le (HashKey : K → Nat) (t : ExtendibleHash K V) (p : Nat) :
    (splitBucket HashKey t p).globalDepth ≤
      max t.globalDepth ((t.deref p).localDepth + 1) := by
  show (growDirectory t p).globalDepth ≤ _
  unfold growDirectory
  split
  · rename_i h
    show t.globalDepth + 1 ≤ _
    rw [h]
    exact Nat.le_max_right _ _
  · exact Nat.le_max_left _ _

theorem splitBucket_shape (HashKey : K → Nat) {t : ExtendibleHash K V}
    (hs : Shape HashKey t) {p : Nat} (hp : p ∈ t.bucketDirectory)
    (hguard : ¬ ((t.deref p).localDepth = t.globalDepth ∧ maxDepth ≤ t.globalDepth)) :
    Shape HashKey (splitBucket HashKey t p) := by
  refine ⟨splitBucket_wf HashKey hs.wf hp, ?_, splitBucket_same_of_agree HashKey hs hp,
    splitBucket_agree_of_same HashKey hs hp, splitBucket_home HashKey hs hp,
    splitBucket_bounded HashKey hs hp⟩
  have hmax := hs.depth_le_max
  show (growDirectory t p).globalDepth ≤ maxDepth
  unfold growDirectory
  split
  · rename_i h
    show t.globalDepth + 1 ≤ maxDepth
    have : ¬ maxDepth ≤ t.globalDepth := fun hle => hguard ⟨h, hle⟩
    omega
  · exact hmax

omit [DecidableEq K] in
theorem modifyContents_shape (HashKey : K → Nat) {t : ExtendibleHash K V}
    (hs : Shape HashKey t) {p : Nat} (hp : p ∈ t.bucketDirectory)
    (f : List (K × V) → List (K × V))
    (hlen : (f (t.deref p).contents).length ≤ t.bucketSizeLimit)
    (hmem : ∀ e ∈ f (t.deref p).contents, e ∈ (t.deref p).contents ∨
      ∀ i, i < t.bucketDirectory.length → t.bucketDirectory.getD i 0 = p →
        HashKey e.1 % 2 ^ t.GetLocalDepth i = i % 2 ^ t.GetLocalDepth i) :
    Shape HashKey (t.modifyContents p f) := by
  have hwf := hs.wf
  have hlt := hwf.ptr_lt p hp
  have hld : ∀ i, (t.modifyContents p f).GetLocalDepth i = t.GetLocalDepth i := by
    intro i
    unfold GetLocalDepth
    exact localDepth_modifyContents t p _ f
  refine ⟨modifyContents_wf hwf p f, hs.depth_le_max, ?_, ?_, ?_, ?_⟩
  · intro i j hi hj h
    rw [hld] at h
    exact hs.same_of_agree i j hi hj h
  · intro i j hi hj h
    rw [hld]
    exact hs.agree_of_same i j hi hj h
  · intro i hi e he
    rw [hld]
    by_cases hq : t.bucketDirectory.getD i 0 = p
    · have he' : e ∈ ((t.modifyContents p f).deref p).contents := by
        have : (t.modifyContents p f).bucketDirectory.getD i 0 = p := hq
        rw [this] at he
        exact he
      rw [deref_modifyContents_self t hlt] at he'
      rcases hmem e he' with h | h
      · exact hs.home i hi e (by rw [hq]; exact h)
      · exact h i hi hq
    · have he' : e ∈ ((t.modifyContents p f).deref (t.bucketDirectory.getD i 0)).contents := he
      rw [deref_modifyContents_ne t hq] at he'
      exact hs.home i hi e he'
  · intro q hq
    show ((t.modifyContents p f).deref q).contents.length ≤ t.bucketSizeLimit
    by_cases hqp : q = p
    · rw [hqp, deref_modifyContents_self t hlt]
      exact hlen
    · rw [deref_modifyContents_ne t hqp]
      exact hs.bounded q hq

omit [DecidableEq K] in
theorem new_shape (HashKey : K → Nat) (size : Nat) :
    Shape HashKey (new size : ExtendibleHash K V) := by
  refine ⟨new_wf size, Nat.zero_le _, ?_, ?_, ?_, ?_⟩
  · intro i j hi hj _
    have hi' : i = 0 := by simpa [new] using hi
    have hj' : j = 0 := by simpa [new] using hj
    rw [hi', hj']
  · intro i j hi hj _
    have hi' : i = 0 := by simpa [new] using hi
    have hj' : j = 0 := by simpa [new] using hj
    rw [hi', hj']
  · intro i hi e he
    have hi' : i = 0 := by simpa [new] using hi
    subst hi'
    simp [new, deref] at he
  · intro q hq
    have hq' : q = 0 := by simpa [new] using hq
    subst hq'
    simp [new, deref]

theorem store_shape (HashKey : K → Nat) {t : ExtendibleHash K V} (hs : Shape HashKey t)
    (key : K) (value : V)
    (hroom : (t.deref (getBucket HashKey t key)).contents.length ≠ t.bucketSizeLimit) :
    Shape HashKey (store HashKey t key value) := by
  have hwf := hs.wf
  have hmem := hwf.getBucket_mem HashKey key
  rw [store_eq]
  apply modifyContents_shape HashKey hs hmem
  · have h1 := length_mapAssign_le key value (t.deref (getBucket HashKey t key)).contents
    have h2 := hs.bounded _ hmem
    omega
  · intro e he
    rcases mem_mapAssign he with h | h
    · exact Or.inl h
    · right
      intro i hi hq
      rw [h]
      have hsame := hs.agree_of_same i (HashKey key % 2 ^ t.globalDepth) hi
        (hwf.index_lt _) (by rw [hq, getBucket_eq])
      have hle : t.GetLocalDepth i ≤ t.globalDepth := by
        unfold GetLocalDepth
        rw [hq]
        exact hwf.depth_le _ hmem
      rw [mod_mod_two_pow _ hle] at hsame
      exact hsame.symm

theorem Remove_shape (HashKey : K → Nat) {t : ExtendibleHash K V} (hs : Shape HashKey t)
    (key : K) : Shape HashKey (Remove HashKey t key).2 := by
  have hmem := hs.wf.getBucket_mem HashKey key
  unfold Remove
  simp only
  split
  · apply modifyContents_shape HashKey hs hmem
    · have h1 := length_mapErase_le key (t.deref (getBucket HashKey t key)).contents
      have h2 := hs.bounded _ hmem
      omega
    · intro e he
      exact Or.inl (mem_mapErase he)
  · exact hs

theorem insertLoop_shape (HashKey : K → Nat) :
    ∀ (fuel : Nat) (t t' : ExtendibleHash K V) (key : K), Shape HashKey t →
      insertLoop HashKey fuel t key = some t' →
      Shape HashKey t' ∧
        (t'.deref (getBucket HashKey t' key)).contents.length ≠ t'.bucketSizeLimit := by
  intro fuel
  induction fuel with
  | zero => intro t t' key _ h; simp [insertLoop] at h
  | succ fuel ih =>
    intro t t' key hs h
    simp only [insertLoop] at h
    split at h
    · split at h
      · exact Option.noConfusion h
      · rename_i hguard
        exact ih _ t' key
          (splitBucket_shape HashKey hs (hs.wf.getBucket_mem HashKey key) hguard) h
    · rename_i hroom
      cases h
      exact ⟨hs, hroom⟩

theorem Insert_shape (HashKey : K → Nat) {fuel : Nat} {t t' : ExtendibleHash K V} {key : K}
    {value : V} (hs : Shape HashKey t) (h : Insert HashKey fuel t key value = some t') :
    Shape HashKey t' := by
  unfold Insert at h
  cases hloop : insertLoop HashKey fuel t key with
  | none => simp [hloop] at h
  | some t₁ =>
    simp only [hloop, Option.map_some', Option.some.injEq] at h
    subst h
    obtain ⟨hs₁, hroom⟩ := insertLoop_shape HashKey fuel t t₁ key hs hloop
    exact store_shape HashKey hs₁ key value hroom

theorem Reachable.shape {HashKey : K → Nat} {size : Nat} {t : ExtendibleHash K V}
    (h : Reachable HashKey size t) : Shape HashKey t := by
  induction h with
  | init => exact new_shape HashKey size
  | insert fuel key value _ hins ih => exact Insert_shape HashKey ih hins
  | remove key _ ih => exact Remove_shape HashKey ih key

theorem Reachable.bucketSizeLimit_eq {HashKey : K → Nat} {size : Nat}
    {t : ExtendibleHash K V} (h : Reachable HashKey size t) : t.bucketSizeLimit = size := by
  induction h with
  | init => rfl
  | insert fuel key value hr hins ih =>
    rename_i t₀ t₁
    unfold Insert at hins
    cases hloop : insertLoop HashKey fuel t₀ key with
    | none => simp [hloop] at hins
    | some t₂ =>
      simp only [hloop, Option.map_some', Option.some.injEq] at hins
      subst hins
      have h3 := (insertLoop_spec HashKey fuel t₀ t₂ key hr.wf hloop).2.2
      show t₂.bucketSizeLimit = size
      rw [h3, ih]
  | remove key _ ih =>
    rename_i t₀
    unfold Remove
    simp only
    split
    · exact ih
    · exact ih

/-! ## Further claims on the extendible hash table -/

/-- C14 (code defect). `GetNumBuckets` returns `bucketDirectory.size()`, the
number of directory slots.  Capacity 2, identity hash: after `Insert(0, 10)`,
`Insert(2, 12)` and `Insert(4, 41)` the directory is `[3, 2, 4, 2]`, four slots
that reference three distinct buckets (slots 1 and 3 alias the same one), and
`GetNumBuckets` is 4. -/
theorem GetNumBuckets_counts_slots :
    Reachable id 2 (⟨2, 2, [3, 2, 4, 2],
        [⟨0, [(0, 10), (2, 12)]⟩, ⟨1, [(0, 10), (2, 12)]⟩, ⟨1, []⟩,
          ⟨2, [(0, 10), (4, 41)]⟩, ⟨2, [(2, 12)]⟩]⟩ : ExtendibleHash Nat Nat) ∧
      GetNumBuckets (⟨2, 2, [3, 2, 4, 2],
        [⟨0, [(0, 10), (2, 12)]⟩, ⟨1, [(0, 10), (2, 12)]⟩, ⟨1, []⟩,
          ⟨2, [(0, 10), (4, 41)]⟩, ⟨2, [(2, 12)]⟩]⟩ : ExtendibleHash Nat Nat) = 4 ∧
      (⟨2, 2, [3, 2, 4, 2],
        [⟨0, [(0, 10), (2, 12)]⟩, ⟨1, [(0, 10), (2, 12)]⟩, ⟨1, []⟩,
          ⟨2, [(0, 10), (4, 41)]⟩, ⟨2, [(2, 12)]⟩]⟩ :
        ExtendibleHash Nat Nat).bucketDirectory.dedup.length = 3 := by
  have h₀ : Reachable id 2 (⟨0, 2, [0], [⟨0, [(0, 10)]⟩]⟩ : ExtendibleHash Nat Nat) :=
    Reachable.insert 1 0 10 Reachable.init (by decide)
  have h₁ : Reachable id 2
      (⟨0, 2, [0], [⟨0, [(0, 10), (2, 12)]⟩]⟩ : ExtendibleHash Nat Nat) :=
    Reachable.insert 1 2 12 h₀ (by decide)
  exact ⟨Reachable.insert 4 4 41 h₁ (by decide), by decide, by decide⟩

/-- C18. Directory shape: on every table reachable from the constructor the
directory has `2 ^ globalDepth` slots, the bucket of every slot has a local
depth of at most the global depth, and two slots whose indices agree on the
low `localDepth` bits of the first hold the same bucket. -/
theorem directory_shape (HashKey : K → Nat) (size : Nat) {t : ExtendibleHash K V}
    (hreach : Reachable HashKey size t) :
    t.bucketDirectory.length = 2 ^ t.GetGlobalDepth ∧
      (∀ i, i < t.bucketDirectory.length → t.GetLocalDepth i ≤ t.GetGlobalDepth) ∧
      (∀ i j, i < t.bucketDirectory.length → j < t.bucketDirectory.length →
        i % 2 ^ t.GetLocalDepth i = j % 2 ^ t.GetLocalDepth i →
        t.bucketDirectory.getD i 0 = t.bucketDirectory.getD j 0) := by
  have hs := hreach.shape
  refine ⟨hs.wf.length_eq, ?_, hs.same_of_agree⟩
  intro i hi
  unfold GetLocalDepth GetGlobalDepth
  apply hs.wf.depth_le
  rw [List.getD_eq_getElem _ _ hi]
  exact List.getElem_mem _

/-- Witness for C18: capacity 2, identity hash, the table holding keys 0, 2
and 4, whose slots 1 and 3 agree on the low bit. -/
theorem directory_shape_witness :
    (⟨2, 2, [3, 2, 4, 2],
        [⟨0, [(0, 10), (2, 12)]⟩, ⟨1, [(0, 10), (2, 12)]⟩, ⟨1, []⟩,
          ⟨2, [(0, 10), (4, 41)]⟩, ⟨2, [(2, 12)]⟩]⟩ :
        ExtendibleHash Nat Nat).bucketDirectory.length = 2 ^ 2 ∧
      (⟨2, 2, [3, 2, 4, 2],
        [⟨0, [(0, 10), (2, 12)]⟩, ⟨1, [(0, 10), (2, 12)]⟩, ⟨1, []⟩,
          ⟨2, [(0, 10), (4, 41)]⟩, ⟨2, [(2, 12)]⟩]⟩ :
        ExtendibleHash Nat Nat).bucketDirectory.getD 1 0 =
      (⟨2, 2, [3, 2, 4, 2],
        [⟨0, [(0, 10), (2, 12)]⟩, ⟨1, [(0, 10), (2, 12)]⟩, ⟨1, []⟩,
          ⟨2, [(0, 10), (4, 41)]⟩, ⟨2, [(2, 12)]⟩]⟩ :
        ExtendibleHash Nat Nat).bucketDirectory.getD 3 0 := by
  have h₀ : Reachable id 2 (⟨0, 2, [0], [⟨0, [(0, 10)]⟩]⟩ : ExtendibleHash Nat Nat) :=
    Reachable.insert 1 0 10 Reachable.init (by decide)
  have h₁ : Reachable id 2
      (⟨0, 2, [0], [⟨0, [(0, 10), (2, 12)]⟩]⟩ : ExtendibleHash Nat Nat) :=
    Reachable.insert 1 2 12 h₀ (by decide)
  have h₂ : Reachable id 2 (⟨2, 2, [3, 2, 4, 2],
      [⟨0, [(0, 10), (2, 12)]⟩, ⟨1, [(0, 10), (2, 12)]⟩, ⟨1, []⟩,
        ⟨2, [(0, 10), (4, 41)]⟩, ⟨2, [(2, 12)]⟩]⟩ : ExtendibleHash Nat Nat) :=
    Reachable.insert 4 4 41 h₁ (by decide)
  have h := directory_shape id 2 h₂
  exact ⟨h.1, h.2.2 1 3 (by decide) (by decide) (by decide)⟩

/-- C19. Bucket capacity: on every table reachable from the constructor with
capacity `size`, so after every `Insert` that returns and every `Remove`, the
bucket of every directory slot holds at most `size` entries. -/
theorem bucket_capacity_bound (HashKey : K → Nat) (size : Nat) {t : ExtendibleHash K V}
    (hreach : Reachable HashKey size t) (i : Nat) (hi : i < t.bucketDirectory.length) :
    (t.deref (t.bucketDirectory.getD i 0)).contents.length ≤ size := by
  have hs := hreach.shape
  have hb := hs.bounded (t.bucketDirectory.getD i 0) (by
    rw [List.getD_eq_getElem _ _ hi]
    exact List.getElem_mem _)
  rw [hreach.bucketSizeLimit_eq] at hb
  exact hb

/-- Witness for C19: capacity 2, identity hash, the table holding keys 0, 2
and 4; slot 0 holds the two entries of keys 0 and 4. -/
theorem bucket_capacity_bound_witness :
    ((⟨2, 2, [3, 2, 4, 2],
        [⟨0, [(0, 10), (2, 12)]⟩, ⟨1, [(0, 10), (2, 12)]⟩, ⟨1, []⟩,
          ⟨2, [(0, 10), (4, 41)]⟩, ⟨2, [(2, 12)]⟩]⟩ : ExtendibleHash Nat Nat).deref
        ((⟨2, 2, [3, 2, 4, 2],
          [⟨0, [(0, 10), (2, 12)]⟩, ⟨1, [(0, 10), (2, 12)]⟩, ⟨1, []⟩,
            ⟨2, [(0, 10), (4, 41)]⟩, ⟨2, [(2, 12)]⟩]⟩ :
          ExtendibleHash Nat Nat).bucketDirectory.getD 0 0)).contents.length ≤ 2 := by
  have h₀ : Reachable id 2 (⟨0, 2, [0], [⟨0, [(0, 10)]⟩]⟩ : ExtendibleHash Nat Nat) :=
    Reachable.insert 1 0 10 Reachable.init (by decide)
  have h₁ : Reachable id 2
      (⟨0, 2, [0], [⟨0, [(0, 10), (2, 12)]⟩]⟩ : ExtendibleHash Nat Nat) :=
    Reachable.insert 1 2 12 h₀ (by decide)
  have h₂ : Reachable id 2 (⟨2, 2, [3, 2, 4, 2],
      [⟨0, [(0, 10), (2, 12)]⟩, ⟨1, [(0, 10), (2, 12)]⟩, ⟨1, []⟩,
        ⟨2, [(0, 10), (4, 41)]⟩, ⟨2, [(2, 12)]⟩]⟩ : ExtendibleHash Nat Nat) :=
    Reachable.insert 4 4 41 h₁ (by decide)
  exact bucket_capacity_bound id 2 h₂ 0 (by decide)

/-! ## Termination of the split loop -/

/-- The bucket that `key` resolves to after one pass of the split loop on its
own bucket: the child on the side of bit `localDepth` of the hash of `key`. -/
theorem deref_getBucket_splitBucket (HashKey : K → Nat) {t : ExtendibleHash K V}
    (hwf : WF t) (key : K) :
    (splitBucket HashKey t (getBucket HashKey t key)).deref
        (getBucket HashKey (splitBucket HashKey t (getBucket HashKey t key)) key) =
      ⟨(t.deref (getBucket HashKey t key)).localDepth + 1,
        if HashKey key &&& (1 <<< (t.deref (getBucket HashKey t key)).localDepth) ≠ 0 then
          (redistribute HashKey (1 <<< (t.deref (getBucket HashKey t key)).localDepth)
            (t.deref (getBucket HashKey t key)).contents).2
        else
          (redistribute HashKey (1 <<< (t.deref (getBucket HashKey t key)).localDepth)
            (t.deref (getBucket HashKey t key)).contents).1⟩ := by
  rw [getBucket_splitBucket HashKey hwf (hwf.getBucket_mem HashKey key), if_pos rfl]
  by_cases hb : HashKey key &&& (1 <<< (t.deref (getBucket HashKey t key)).localDepth) ≠ 0
  · rw [if_pos hb, if_pos hb, deref_splitBucket_snd]
  · rw [if_neg hb, if_neg hb, deref_splitBucket_fst]

theorem mem_keySide {HashKey : K → Nat} {d : Nat} {key : K} {c : List (K × V)} {e : K × V}
    (h : e ∈ (if HashKey key &&& (1 <<< d) ≠ 0 then (redistribute HashKey (1 <<< d) c).2
      else (redistribute HashKey (1 <<< d) c).1)) :
    e ∈ c ∧ (HashKey e.1).testBit d = (HashKey key).testBit d := by
  by_cases hb : HashKey key &&& (1 <<< d) ≠ 0
  · rw [if_pos hb] at h
    obtain ⟨h1, h2⟩ := mem_redistribute_snd h
    rw [and_mask_ne_zero_iff] at hb h2
    exact ⟨h1, h2.trans hb.symm⟩
  · rw [if_neg hb] at h
    obtain ⟨h1, h2⟩ := mem_redistribute_fst h
    rw [and_mask_ne_zero_iff] at hb h2
    have h3 : (HashKey e.1).testBit d = false := by simpa using h2
    have h4 : (HashKey key).testBit d = false := by simpa using hb
    exact ⟨h1, h3.trans h4.symm⟩

theorem keySide_of_mem (HashKey : K → Nat) (d : Nat) (key : K) {c : List (K × V)}
    {e : K × V} (he : e ∈ c) (hbit : (HashKey e.1).testBit d = (HashKey key).testBit d) :
    ∃ v, (e.1, v) ∈ (if HashKey key &&& (1 <<< d) ≠ 0 then
      (redistribute HashKey (1 <<< d) c).2 else (redistribute HashKey (1 <<< d) c).1) := by
  obtain ⟨v, hv⟩ := mapFind_isSome_of_mem he
  refine ⟨v, mem_of_mapFind ?_⟩
  by_cases hb : HashKey key &&& (1 <<< d) ≠ 0
  · have hbe : HashKey e.1 &&& (1 <<< d) ≠ 0 := by
      rw [and_mask_ne_zero_iff] at hb ⊢
      rw [hbit]; exact hb
    rw [if_pos hb, mapFind_redistribute_snd, if_pos hbe]
    exact hv
  · have hbe : ¬ HashKey e.1 &&& (1 <<< d) ≠ 0 := by
      rw [and_mask_ne_zero_iff] at hb ⊢
      rw [hbit]; exact hb
    rw [if_neg hb, mapFind_redistribute_fst, if_neg hbe]
    exact hv

theorem length_keySide_le (HashKey : K → Nat) (d : Nat) (key : K) (c : List (K × V)) :
    (if HashKey key &&& (1 <<< d) ≠ 0 then (redistribute HashKey (1 <<< d) c).2
      else (redistribute HashKey (1 <<< d) c).1).length ≤ c.length := by
  have h := length_redistribute HashKey (1 <<< d) c
  split <;> omega

theorem length_keySide_lt {HashKey : K → Nat} {d : Nat} {key : K} {c : List (K × V)}
    {e : K × V} (he : e ∈ c) (hbit : (HashKey e.1).testBit d ≠ (HashKey key).testBit d) :
    (if HashKey key &&& (1 <<< d) ≠ 0 then (redistribute HashKey (1 <<< d) c).2
      else (redistribute HashKey (1 <<< d) c).1).length < c.length := by
  have h := length_redistribute HashKey (1 <<< d) c
  obtain ⟨v, hv⟩ := mapFind_isSome_of_mem he
  by_cases hb : HashKey key &&& (1 <<< d) ≠ 0
  · rw [if_pos hb]
    have hbe : ¬ HashKey e.1 &&& (1 <<< d) ≠ 0 := by
      rw [and_mask_ne_zero_iff] at hb ⊢
      intro hcon
      exact hbit (hcon.trans hb.symm)
    have hother : mapFind e.1 (redistribute HashKey (1 <<< d) c).1 = some v := by
      rw [mapFind_redistribute_fst, if_neg hbe]; exact hv
    have hpos := List.length_pos_of_mem (mem_of_mapFind hother)
    omega
  · rw [if_neg hb]
    have hbe : HashKey e.1 &&& (1 <<< d) ≠ 0 := by
      rw [and_mask_ne_zero_iff] at hb ⊢
      have h4 : (HashKey key).testBit d = false := by simpa using hb
      rw [h4] at hbit
      simpa using hbit
    have hother : mapFind e.1 (redistribute HashKey (1 <<< d) c).2 = some v := by
      rw [mapFind_redistribute_snd, if_pos hbe]; exact hv
    have hpos := List.length_pos_of_mem (mem_of_mapFind hother)
    omega

/-- The split loop for `key` leaves after at most `m` passes when the keys of
the target bucket agree with `key` on the hash bits below `j`, a full target
bucket has a local depth of at most `j` and holds a key that differs from
`key` in bit `j`, and `m` covers the depths from the local depth up to `j`. -/
theorem insertLoop_terminates (HashKey : K → Nat) (key : K) (j : Nat)
    (hj : j + 1 ≤ maxDepth) :
    ∀ (m : Nat) (t : ExtendibleHash K V), WF t → t.globalDepth ≤ maxDepth →
      (∀ e ∈ (t.deref (getBucket HashKey t key)).contents, ∀ i, i < j →
        (HashKey e.1).testBit i = (HashKey key).testBit i) →
      (t.deref (getBucket HashKey t key)).contents.length ≤ t.bucketSizeLimit →
      ((t.deref (getBucket HashKey t key)).contents.length = t.bucketSizeLimit →
        (t.deref (getBucket HashKey t key)).localDepth ≤ j ∧
        ∃ e ∈ (t.deref (getBucket HashKey t key)).contents,
          (HashKey e.1).testBit j ≠ (HashKey key).testBit j) →
      j + 1 ≤ (t.deref (getBucket HashKey t key)).localDepth + m →
      ∃ t', insertLoop HashKey (m + 1) t key = some t' ∧
        t'.globalDepth ≤ max t.globalDepth (j + 1) ∧
        t'.heap.length ≤ t.heap.length + 2 * m ∧
        t'.bucketDirectory.length ≤ 2 ^ max t.globalDepth (j + 1) := by
  intro m
  induction m with
  | zero =>
    intro t hwf _ _ _ hfull hm
    have hroom : (t.deref (getBucket HashKey t key)).contents.length ≠ t.bucketSizeLimit := by
      intro h
      have := (hfull h).1
      omega
    refine ⟨t, ?_, Nat.le_max_left _ _, Nat.le_refl _, ?_⟩
    · simp only [insertLoop]
      rw [if_neg hroom]
    · rw [hwf.length_eq]
      exact Nat.pow_le_pow_right (by decide) (Nat.le_max_left _ _)
  | succ m ih =>
    intro t hwf hmax hagree hbound hfull hm
    by_cases hroom : (t.deref (getBucket HashKey t key)).contents.length = t.bucketSizeLimit
    · obtain ⟨hdj, e, he, hdiff⟩ := hfull hroom
      have hmem := hwf.getBucket_mem HashKey key
      have hguard : ¬ ((t.deref (getBucket HashKey t key)).localDepth = t.globalDepth ∧
          maxDepth ≤ t.globalDepth) := by
        rintro ⟨h1, h2⟩
        omega
      have hwf' := splitBucket_wf HashKey hwf hmem
      have hgd' := splitBucket_globalDepth_le HashKey t (getBucket HashKey t key)
      have hbucket := deref_getBucket_splitBucket HashKey hwf key
      have hstep : insertLoop HashKey (m + 1 + 1) t key =
          insertLoop HashKey (m + 1) (splitBucket HashKey t (getBucket HashKey t key)) key := by
        simp only [insertLoop]
        rw [if_pos hroom, if_neg hguard]
      have hbitd : (HashKey e.1).testBit (t.deref (getBucket HashKey t key)).localDepth =
            (HashKey key).testBit (t.deref (getBucket HashKey t key)).localDepth ∨
          (t.deref (getBucket HashKey t key)).localDepth = j := by
        by_cases hlt : (t.deref (getBucket HashKey t key)).localDepth < j
        · exact Or.inl (hagree e he _ hlt)
        · right; omega
      obtain ⟨t', h1, h2, h3, h4⟩ := ih (splitBucket HashKey t (getBucket HashKey t key)) hwf'
        (by
          have : max t.globalDepth ((t.deref (getBucket HashKey t key)).localDepth + 1) ≤
              maxDepth := Nat.max_le.mpr ⟨hmax, by omega⟩
          exact Nat.le_trans hgd' this)
        (by
          intro e' he' i hi
          rw [hbucket] at he'
          exact hagree e' (mem_keySide he').1 i hi)
        (by
          rw [hbucket, bucketSizeLimit_splitBucket]
          exact Nat.le_trans (length_keySide_le HashKey _ key _) hbound)
        (by
          rw [hbucket, bucketSizeLimit_splitBucket]
          intro hlen
          have hnotlt : ¬ (if HashKey key &&&
              (1 <<< (t.deref (getBucket HashKey t key)).localDepth) ≠ 0 then
                (redistribute HashKey (1 <<< (t.deref (getBucket HashKey t key)).localDepth)
                  (t.deref (getBucket HashKey t key)).contents).2
              else
                (redistribute HashKey (1 <<< (t.deref (getBucket HashKey t key)).localDepth)
                  (t.deref (getBucket HashKey t key)).contents).1).length <
              (t.deref (getBucket HashKey t key)).contents.length := by
            have hlen' : (if HashKey key &&&
              (1 <<< (t.deref (getBucket HashKey t key)).localDepth) ≠ 0 then
                (redistribute HashKey (1 <<< (t.deref (getBucket HashKey t key)).localDepth)
                  (t.deref (getBucket HashKey t key)).contents).2
              else
                (redistribute HashKey (1 <<< (t.deref (getBucket HashKey t key)).localDepth)
                  (t.deref (getBucket HashKey t key)).contents).1).length =
              t.bucketSizeLimit := hlen
            omega
          have hsame : (HashKey e.1).testBit (t.deref (getBucket HashKey t key)).localDepth =
              (HashKey key).testBit (t.deref (getBucket HashKey t key)).localDepth := by
            by_contra hne
            exact hnotlt (length_keySide_lt he hne)
          have hlt : (t.deref (getBucket HashKey t key)).localDepth < j := by
            rcases Nat.lt_or_ge (t.deref (getBucket HashKey t key)).localDepth j with h | h
            · exact h
            · have hEq : (t.deref (getBucket HashKey t key)).localDepth = j := by omega
              rw [hEq] at hsame
              exact absurd hsame hdiff
          obtain ⟨v, hv⟩ := keySide_of_mem HashKey _ key he hsame
          exact ⟨by show _ + 1 ≤ j; omega, (e.1, v), hv, hdiff⟩)
        (by
          rw [hbucket]
          show j + 1 ≤ (t.deref (getBucket HashKey t key)).localDepth + 1 + m
          omega)
      have hmaxle : max (splitBucket HashKey t (getBucket HashKey t key)).globalDepth (j + 1) ≤
          max t.globalDepth (j + 1) := by
        apply Nat.max_le.mpr
        constructor
        · apply Nat.le_trans hgd'
          apply Nat.max_le.mpr
          exact ⟨Nat.le_max_left _ _, Nat.le_trans (by omega) (Nat.le_max_right _ _)⟩
        · exact Nat.le_max_right _ _
      refine ⟨t', by rw [hstep]; exact h1, Nat.le_trans h2 hmaxle, ?_,
        Nat.le_trans h4 (Nat.pow_le_pow_right (by decide) hmaxle)⟩
      rw [heap_length_splitBucket] at h3
      omega
    · refine ⟨t, ?_, Nat.le_max_left _ _, by omega, ?_⟩
      · simp only [insertLoop]
        rw [if_neg hroom]
      · rw [hwf.length_eq]
        exact Nat.pow_le_pow_right (by decide) (Nat.le_max_left _ _)

/-- The split loop for `key` never leaves on a table of capacity 1 whose target
bucket holds one key with the same hash bits as `key` below `maxDepth`: every
pass puts that key on the side of `key`, until the doubling at depth
`maxDepth`. -/
theorem insertLoop_none_of_agree (HashKey : K → Nat) (key key₀ : K)
    (hbits : ∀ i, i < maxDepth → (HashKey key₀).testBit i = (HashKey key).testBit i) :
    ∀ (fuel : Nat) (t : ExtendibleHash K V), WF t → t.globalDepth ≤ maxDepth →
      t.bucketSizeLimit = 1 →
      (∃ v, (t.deref (getBucket HashKey t key)).contents = [(key₀, v)]) →
      insertLoop HashKey fuel t key = none := by
  intro fuel
  induction fuel with
  | zero => intro t _ _ _ _; rfl
  | succ fuel ih =>
    intro t hwf hmax hcap hfull
    obtain ⟨v, hv⟩ := hfull
    have hmem := hwf.getBucket_mem HashKey key
    have hld := hwf.depth_le _ hmem
    have hlen : (t.deref (getBucket HashKey t key)).contents.length = t.bucketSizeLimit := by
      rw [hv, hcap]; rfl
    simp only [insertLoop]
    rw [if_pos hlen]
    split
    · rfl
    · rename_i hguard
      have hdlt : (t.deref (getBucket HashKey t key)).localDepth < maxDepth := by
        by_cases heq : (t.deref (getBucket HashKey t key)).localDepth = t.globalDepth
        · have : ¬ maxDepth ≤ t.globalDepth := fun h => hguard ⟨heq, h⟩
          omega
        · omega
      apply ih _ (splitBucket_wf HashKey hwf hmem)
      · have hgd' := splitBucket_globalDepth_le HashKey t (getBucket HashKey t key)
        exact Nat.le_trans hgd' (Nat.max_le.mpr ⟨hmax, hdlt⟩)
      · rw [bucketSizeLimit_splitBucket]; exact hcap
      · have hin : (key₀, v) ∈ (t.deref (getBucket HashKey t key)).contents := by
          rw [hv]; exact List.mem_singleton_self _
        obtain ⟨w, hw⟩ := keySide_of_mem HashKey
          (t.deref (getBucket HashKey t key)).localDepth key hin (hbits _ hdlt)
        have hle := length_keySide_le HashKey (t.deref (getBucket HashKey t key)).localDepth
          key (t.deref (getBucket HashKey t key)).contents
        rw [deref_getBucket_splitBucket HashKey hwf key]
        dsimp only
        generalize (if HashKey key &&&
            (1 <<< (t.deref (getBucket HashKey t key)).localDepth) ≠ 0 then
          (redistribute HashKey (1 <<< (t.deref (getBucket HashKey t key)).localDepth)
            (t.deref (getBucket HashKey t key)).contents).2
          else
          (redistribute HashKey (1 <<< (t.deref (getBucket HashKey t key)).localDepth)
            (t.deref (getBucket HashKey t key)).contents).1) = side at hw hle
        rw [hv] at hle
        refine ⟨w, ?_⟩
        match side, hw, hle with
        | [x], hw, _ =>
          rw [List.mem_singleton] at hw
          rw [hw]
        | [], hw, _ => exact absurd hw (List.not_mem_nil _)
        | _ :: _ :: _, _, hle => simp at hle

/-- C20 as stated fails past the range of `int`. `ExtendibleHash<int, int>` of
capacity 1 with the hash of libstdc++ (the key converted to `size_t`): after
`Insert(0, 10)` the key `INT_MIN = -2147483648` is absent, its target bucket is
full, and bit 31 is the lowest bit in which the hash of the stored key 0
differs from its hash; `Insert(INT_MIN, 7)` would need a global depth of 32 and
does not return, whatever the number of loop iterations granted. -/
theorem Insert_diverges_past_int_range :
    Reachable (fun k : Int => (k % 18446744073709551616).toNat) 1
        (⟨0, 1, [0], [⟨0, [(0, 10)]⟩]⟩ : ExtendibleHash Int Nat) ∧
      Find (fun k : Int => (k % 18446744073709551616).toNat)
        (⟨0, 1, [0], [⟨0, [(0, 10)]⟩]⟩ : ExtendibleHash Int Nat) (-2147483648) = none ∧
      ((⟨0, 1, [0], [⟨0, [(0, 10)]⟩]⟩ : ExtendibleHash Int Nat).deref
        (getBucket (fun k : Int => (k % 18446744073709551616).toNat)
          (⟨0, 1, [0], [⟨0, [(0, 10)]⟩]⟩ : ExtendibleHash Int Nat) (-2147483648))).contents =
        [(0, 10)] ∧
      (((0 : Int) % 18446744073709551616).toNat).testBit 31 ≠
        (((-2147483648 : Int) % 18446744073709551616).toNat).testBit 31 ∧
      (∀ i, i < 31 → (((0 : Int) % 18446744073709551616).toNat).testBit i =
        (((-2147483648 : Int) % 18446744073709551616).toNat).testBit i) ∧
      ∀ fuel, Insert (fun k : Int => (k % 18446744073709551616).toNat) fuel
        (⟨0, 1, [0], [⟨0, [(0, 10)]⟩]⟩ : ExtendibleHash Int Nat) (-2147483648) 7 = none := by
  have hreach : Reachable (fun k : Int => (k % 18446744073709551616).toNat) 1
      (⟨0, 1, [0], [⟨0, [(0, 10)]⟩]⟩ : ExtendibleHash Int Nat) :=
    Reachable.insert 1 0 10 Reachable.init (by decide)
  have hbits : ∀ i, i < 31 → (((0 : Int) % 18446744073709551616).toNat).testBit i =
      (((-2147483648 : Int) % 18446744073709551616).toNat).testBit i := by decide
  refine ⟨hreach, by decide, by decide, by decide, hbits, ?_⟩
  intro fuel
  unfold Insert
  rw [insertLoop_none_of_agree (fun k : Int => (k % 18446744073709551616).toNat)
    (-2147483648) 0 (fun i hi => hbits i (Nat.lt_trans hi (by decide))) fuel _ hreach.wf
    (by decide) rfl ⟨10, by decide⟩]
  rfl

/-- C20, amended. On a table reachable from the constructor: when the target
bucket of `key` is not full, `Insert(key, value)` returns without a split, with
the global depth and the directory unchanged; when it is full and `j` is the
lowest bit in which the hash of a key stored in it differs from the hash of
`key`, and `j + 1` does not exceed `maxDepth`, `Insert(key, value)` returns
after at most `j + 1 - localDepth` splits with a global depth of at most
`max(old global depth, j + 1)`. -/
theorem Insert_terminates_within_int_range (HashKey : K → Nat) (size : Nat)
    {t : ExtendibleHash K V} (hreach : Reachable HashKey size t) (key : K) (value : V) :
    ((t.deref (getBucket HashKey t key)).contents.length ≠ t.bucketSizeLimit →
      Insert HashKey 1 t key value = some (store HashKey t key value) ∧
      (store HashKey t key value).globalDepth = t.globalDepth ∧
      (store HashKey t key value).bucketDirectory = t.bucketDirectory ∧
      (store HashKey t key value).heap.length = t.heap.length) ∧
    (∀ j, (t.deref (getBucket HashKey t key)).contents.length = t.bucketSizeLimit →
      j + 1 ≤ maxDepth →
      (∃ e ∈ (t.deref (getBucket HashKey t key)).contents,
        (HashKey e.1).testBit j ≠ (HashKey key).testBit j) →
      (∀ e ∈ (t.deref (getBucket HashKey t key)).contents, ∀ i, i < j →
        (HashKey e.1).testBit i = (HashKey key).testBit i) →
      (t.deref (getBucket HashKey t key)).localDepth ≤ j ∧
      ∃ fuel t', Insert HashKey fuel t key value = some t' ∧
        t'.globalDepth ≤ max t.globalDepth (j + 1) ∧
        t'.heap.length ≤
          t.heap.length + 2 * (j + 1 - (t.deref (getBucket HashKey t key)).localDepth)) := by
  have hs := hreach.shape
  have hwf := hs.wf
  have hmem := hwf.getBucket_mem HashKey key
  constructor
  · intro hroom
    refine ⟨?_, rfl, rfl, ?_⟩
    · unfold Insert
      simp only [insertLoop]
      rw [if_neg hroom]
      rfl
    · rw [store_eq]
      show (t.heap.set _ _).length = _
      rw [List.length_set]
  · intro j hfull hj hdiff hagree
    have hdj : (t.deref (getBucket HashKey t key)).localDepth ≤ j := by
      obtain ⟨e, he, hne⟩ := hdiff
      by_contra hcon
      have hlt : j < (t.deref (getBucket HashKey t key)).localDepth := Nat.lt_of_not_le hcon
      have hhome := hs.home (HashKey key % 2 ^ t.globalDepth) (hwf.index_lt _) e (by
        rw [← getBucket_eq]; exact he)
      unfold GetLocalDepth at hhome
      rw [← getBucket_eq, mod_mod_two_pow _ (hwf.depth_le _ hmem)] at hhome
      exact hne (testBit_eq_of_mod_two_pow_eq hhome hlt)
    refine ⟨hdj, ?_⟩
    obtain ⟨t', h1, h2, h3, _⟩ := insertLoop_terminates HashKey key j hj
      (j + 1 - (t.deref (getBucket HashKey t key)).localDepth) t hwf hs.depth_le_max hagree
      (hs.bounded _ hmem) (fun _ => ⟨hdj, hdiff⟩) (by omega)
    refine ⟨j + 1 - (t.deref (getBucket HashKey t key)).localDepth + 1,
      store HashKey t' key value, ?_, h2, ?_⟩
    · unfold Insert
      rw [h1]
      rfl
    · rw [store_eq]
      show (t'.heap.set _ _).length ≤ _
      rw [List.length_set]
      exact h3

/-- Witness for C20: capacity 2, identity hash, the full bucket holding keys 0
and 2; for key 4 the lowest differing bit is bit 1 (key 2), and `Insert(4, 41)`
returns with a global depth of at most 2. -/
theorem Insert_terminates_within_int_range_witness :
    ∃ fuel t', Insert id fuel
        (⟨0, 2, [0], [⟨0, [(0, 10), (2, 12)]⟩]⟩ : ExtendibleHash Nat Nat) 4 41 = some t' ∧
      t'.globalDepth ≤ max 0 (1 + 1) ∧
      t'.heap.length ≤ 1 + 2 * (1 + 1 - 0) := by
  have h₀ : Reachable id 2 (⟨0, 2, [0], [⟨0, [(0, 10)]⟩]⟩ : ExtendibleHash Nat Nat) :=
    Reachable.insert 1 0 10 Reachable.init (by decide)
  have h₁ : Reachable id 2
      (⟨0, 2, [0], [⟨0, [(0, 10), (2, 12)]⟩]⟩ : ExtendibleHash Nat Nat) :=
    Reachable.insert 1 2 12 h₀ (by decide)
  exact ((Insert_terminates_within_int_range id 2 h₁ 4 41).2 1 (by decide) (by decide)
    (by decide) (by decide)).2

end ExtendibleHash

end cmudb
